import Mathlib

/-!
Verification of the translation pipeline of `translate_strings_xml.py`:
placeholder protection and restoration, character-budgeted batching,
deduplication, retry around an abstract batch-translate call, and the
reassembly orchestration.  Python strings are modelled as Lean `String`
(lists of characters); the ASCII fragment of the placeholder pattern is
modelled (`Char.isDigit` stands for the regex digit class); the external
translator is an abstract function parameter; machine effects (logging,
sleeping, progress bars) are dropped.  Recursions that consume more than
one element per step are written with an explicit fuel argument equal to
the input length so every definition evaluates by kernel reduction.
-/

/-- A string is empty or whitespace-only: the model of Python's
`not text.strip()`. -/
def isBlank (s : String) : Bool := s.data.all Char.isWhitespace

/-- Model of Python's `s[:n]` slicing. -/
def strTake (s : String) (n : Nat) : String := String.mk (s.data.take n)

/-- `pat` is a leading segment of `l` (boolean test used by `replaceF`). -/
def leadsB : List Char → List Char → Bool
  | [], _ => true
  | _ :: _, [] => false
  | a :: as, b :: bs => a = b && leadsB as bs

/-- `pat` occurs at the very start of `l`. -/
def Leads (pat l : List Char) : Prop := ∃ t, l = pat ++ t

/-- `pat` occurs somewhere inside `l` as a contiguous run. -/
def Occurs (pat l : List Char) : Prop := ∃ u v, l = u ++ pat ++ v

/-- The character for the decimal digit `n` (`0 ≤ n < 10`). -/
def digitChar (n : Nat) : Char := Char.ofNat (48 + n)

/-- Decimal rendering of a natural number (model of Python `str(int)`),
with fuel; `fuel > n` is always enough. -/
def decReprF : Nat → Nat → List Char
  | 0, _ => []
  | fuel + 1, n =>
    if n < 10 then [digitChar n]
    else decReprF fuel (n / 10) ++ [digitChar (n % 10)]

/-- Decimal rendering of a natural number, as the characters of
Python's `str(idx)`. -/
def decRepr (n : Nat) : List Char := decReprF (n + 1) n

/-- The characters of the synthetic token `__TOK{i}__` built by
`protect_tokens`. -/
def tokL (i : Nat) : List Char :=
  '_' :: '_' :: 'T' :: 'O' :: 'K' :: (decRepr i ++ ['_', '_'])

/-- The type letters accepted after `%` by the placeholder pattern. -/
def sdif : List Char := ['s', 'd', 'i', 'f']

/-- One attempt of the placeholder regex
`(%\d+\$[sdif]|%[sdif]|\\n|\\t|\\r)` at the head of `cs`: returns the
matched characters and the remainder, trying the alternatives in the
pattern's order exactly as Python's `re` does at a fixed position. -/
def matchPH (cs : List Char) : Option (List Char × List Char) :=
  match cs with
  | [] => none
  | c :: rest =>
    if c = '%' then
      let ds := rest.takeWhile Char.isDigit
      if ds.isEmpty then
        match rest with
        | [] => none
        | t :: rest2 => if t ∈ sdif then some (['%', t], rest2) else none
      else
        match rest.dropWhile Char.isDigit with
        | d :: t :: rest3 =>
          if d = '$' ∧ t ∈ sdif then some (('%' :: ds) ++ ['$', t], rest3) else none
        | _ => none
    else if c = '\\' then
      match rest with
      | [] => none
      | c2 :: rest2 =>
        if c2 = 'n' ∨ c2 = 't' ∨ c2 = 'r' then some (['\\', c2], rest2) else none
    else none

/-- The left-to-right scan of `PLACEHOLDER_RE.sub(repl, text)` inside
`protect_tokens`: replaces each non-overlapping leftmost match by the
token `__TOK{i}__`, collecting the token map in insertion order.  The
fuel only bounds the recursion depth; `fuel ≥ cs.length` is enough. -/
def protectAuxF : Nat → List Char → Nat → List Char × List (List Char × List Char)
  | 0, _, _ => ([], [])
  | fuel + 1, cs, i =>
    match matchPH cs with
    | some (m, rest) =>
      let r := protectAuxF fuel rest (i + 1)
      (tokL i ++ r.1, (tokL i, m) :: r.2)
    | none =>
      match cs with
      | [] => ([], [])
      | c :: rest =>
        let r := protectAuxF fuel rest i
        (c :: r.1, r.2)

/-- The scan of `protect_tokens` run with adequate fuel. -/
def protectRun (cs : List Char) (i : Nat) : List Char × List (List Char × List Char) :=
  protectAuxF cs.length cs i

/-- `protect_tokens(text)`: replaces placeholders by `__TOK{i}__` tokens
and returns the protected text together with the token → original map
(Python dict in insertion order, as an association list). -/
def protect_tokens (s : String) : String × List (String × String) :=
  let r := protectRun s.data 0
  (String.mk r.1, r.2.map (fun kv => (String.mk kv.1, String.mk kv.2)))

/-- Model of Python `str.replace` (all non-overlapping occurrences,
scanning left to right), with fuel; `fuel ≥ cs.length` is enough.  The
guard keeps the empty pattern from looping; every pattern used by the
program (a token) is non-empty. -/
def replaceF : Nat → List Char → List Char → List Char → List Char
  | 0, cs, _, _ => cs
  | _ + 1, [], _, _ => []
  | fuel + 1, c :: rest, pat, rep =>
    if pat ≠ [] ∧ leadsB pat (c :: rest) then
      rep ++ replaceF fuel ((c :: rest).drop pat.length) pat rep
    else
      c :: replaceF fuel rest pat rep

/-- `str.replace` run with adequate fuel. -/
def replaceRun (cs pat rep : List Char) : List Char :=
  replaceF cs.length cs pat rep

/-- Python `text.replace(key, value)` on strings. -/
def strReplace (s pat rep : String) : String :=
  String.mk (replaceRun s.data pat.data rep.data)

/-- `unprotect_tokens(text, token_map)`: substitutes every token back to
its original matched text, iterating the map in insertion order. -/
def unprotect_tokens (text : String) (token_map : List (String × String)) : String :=
  token_map.foldl (fun t kv => strReplace t kv.1 kv.2) text

/-- The token-map fold of `unprotect_tokens` at the character level. -/
def unprotL (t : List Char) (tm : List (List Char × List Char)) : List Char :=
  tm.foldl (fun acc kv => replaceRun acc kv.1 kv.2) t

/-- `true` iff the characters `TOK` occur contiguously in `l`; inputs
containing this run can collide with the synthetic tokens. -/
def containsTOK : List Char → Bool
  | [] => false
  | c :: rest => leadsB ['T', 'O', 'K'] (c :: rest) || containsTOK rest

/-- The private separator `SEP` between batch items. -/
def SEP : String := "\n<<<SEG>>>\n"

/-- `yield_batches`' loop state: remaining inputs, budget, accumulated
batch and its accumulated serialized length, exactly as in the source. -/
def yieldBatchesGo : List String → Nat → List String → Nat → List (List String)
  | [], _, batch, _ => if batch.isEmpty then [] else [batch]
  | text :: rest, maxChars, batch0, length0 =>
    let textLen := text.length
    let flush := batch0 ≠ [] ∧ length0 + SEP.length + textLen > maxChars
    let pre : List (List String) := if flush then [batch0] else []
    let batch := if flush then [] else batch0
    let length := if flush then 0 else length0
    if textLen > maxChars then
      pre ++ [[text]] ++ yieldBatchesGo rest maxChars [] 0
    else
      pre ++ yieldBatchesGo rest maxChars (batch ++ [text])
        (length + textLen + (if length ≠ 0 then SEP.length else 0))

/-- `yield_batches(strings, max_chars)`. -/
def yield_batches (strings : List String) (maxChars : Nat) : List (List String) :=
  yieldBatchesGo strings maxChars [] 0

/-- Serialized size of a batch: item lengths plus one separator between
each pair of consecutive items. -/
def serializedSize (b : List String) : Nat :=
  (b.map String.length).sum + SEP.length * (b.length - 1)

/-- Concatenation of a list of batches. -/
def joinAll : List (List α) → List α
  | [] => []
  | l :: ls => l ++ joinAll ls

/-- What `translator.translate_batch` may hand back: not a list at all,
or a list of optional strings (Python `None` or a string). -/
inductive RawOutput where
  | nonList : RawOutput
  | ofList : List (Option String) → RawOutput
deriving DecidableEq

/-- `"" if translated is None else str(translated)`. -/
def pyStr : Option String → String
  | none => ""
  | some s => s

/-- Per-position fallback of `translate_batch`: a blank translation is
replaced by the original (protected) text of that position. -/
def safeItem (original : String) (translated : Option String) : String :=
  let t := pyStr translated
  if isBlank t then original else t

/-- `translate_batch(translator, batch)` given the translator's raw
output: validates that the output is a list of matching length and
applies the blank-item fallback; an invalid response is an error
(the raised `ValueError`). -/
def translate_batch (output : RawOutput) (batch : List String) : Except String (List String) :=
  match output with
  | .nonList => .error "El traductor no devolvio una lista de traducciones para el lote actual."
  | .ofList out =>
    if out.length ≠ batch.length then
      .error "El numero de traducciones devuelto no coincide con el lote."
    else
      .ok (List.zipWith safeItem batch out)

/-- The payload of the fatal `RuntimeError` raised when retries are
exhausted: excerpt of the batch's first item, batch size, and the
exception of the last attempt (`from exc`). -/
structure FatalInfo where
  excerpt : String
  size : Nat
  cause : String
deriving DecidableEq

/-- Builds the fatal error for a batch from the last attempt's error. -/
def mkFatal (batch : List String) (cause : String) : FatalInfo :=
  ⟨strTake (batch.headD "") 80, batch.length, cause⟩

/-- The retry loop of `translate_batch_with_retry`: `idx` is the index
of the current invocation of the underlying call, `remaining` the number
of further failures still allowed before the fatal error. -/
def retryAux (call : Nat → Except String (List String)) (batch : List String)
    (idx : Nat) : Nat → Except FatalInfo (List String)
  | 0 =>
    match call idx with
    | .ok r => .ok r
    | .error e => .error (mkFatal batch e)
  | remaining + 1 =>
    match call idx with
    | .ok r => .ok r
    | .error _ => retryAux call batch (idx + 1) remaining

/-- `translate_batch_with_retry(translator, batch, max_retries)` with the
underlying call abstracted as a function of the invocation number: the
call is attempted up to `maxRetries + 1` times; the first success is
returned; exhaustion raises the fatal error. -/
def translate_batch_with_retry (call : Nat → Except String (List String))
    (batch : List String) (maxRetries : Nat) : Except FatalInfo (List String) :=
  retryAux call batch 0 maxRetries

instance {ε α : Type} [DecidableEq ε] [DecidableEq α] : DecidableEq (Except ε α) := fun x y =>
  match x, y with
  | .ok a, .ok b =>
    if h : a = b then isTrue (by rw [h]) else isFalse (fun hc => by cases hc; exact h rfl)
  | .ok _, .error _ => isFalse (fun hc => by cases hc)
  | .error _, .ok _ => isFalse (fun hc => by cases hc)
  | .error e, .error f =>
    if h : e = f then isTrue (by rw [h]) else isFalse (fun hc => by cases hc; exact h rfl)

/-- The ways a run of `translate_strings` can abort. -/
inductive RunError where
  | retryFailed : FatalInfo → RunError
  | postRetryMismatch : RunError
  | keyError : RunError
  | finalCountMismatch : RunError
deriving DecidableEq

/-- First pass of `translate_strings` over the protected texts: blank
values are cached as themselves (a write per occurrence), unseen
non-blank values are cached with the `""` placeholder and queued.
Returns the cache write events in program order and
`unique_to_translate`; `keys` tracks the cache's key set. -/
def firstPassGo : List String → List String → List (String × String) × List String
  | [], _ => ([], [])
  | t :: rest, keys =>
    if isBlank t then
      let r := firstPassGo rest (if t ∈ keys then keys else keys ++ [t])
      ((t, t) :: r.1, r.2)
    else if t ∈ keys then firstPassGo rest keys
    else
      let r := firstPassGo rest (keys ++ [t])
      ((t, "") :: r.1, t :: r.2)

/-- The per-batch call made by `translate_strings`: the abstract
provider's raw output for the given batch and attempt, validated by
`translate_batch`. -/
def batchCall (provider : List String → Nat → RawOutput) (b : List String) :
    Nat → Except String (List String) :=
  fun i => translate_batch (provider b i) b

/-- The batch loop of `translate_strings`: each batch goes through the
retry wrapper, the returned length is checked once more, and the
translations are written into the cache (`zip` of keys and values).
Returns the cache write events of the loop. -/
def batchLoop (provider : List String → Nat → RawOutput) (maxRetries : Nat) :
    List (List String) → Except RunError (List (String × String))
  | [] => .ok []
  | b :: rest =>
    match translate_batch_with_retry (batchCall provider b) b maxRetries with
    | .error f => .error (.retryFailed f)
    | .ok tr =>
      if tr.length ≠ b.length then .error .postRetryMismatch
      else
        match batchLoop provider maxRetries rest with
        | .error e => .error e
        | .ok ws => .ok (b.zip tr ++ ws)

/-- Reading a Python dict built by a sequence of writes: the last write
for the key wins; `none` models a `KeyError`. -/
def dictGet (writes : List (String × String)) (k : String) : Option String :=
  ((writes.filter (fun kv => kv.1 == k)).getLast?).map (fun kv => kv.2)

/-- The protected text of every unit, in input order. -/
def protectedOf (inners : List String) : List String :=
  inners.map (fun s => (protect_tokens s).1)

/-- The token map of every unit, in input order. -/
def tokenMapsOf (inners : List String) : List (List (String × String)) :=
  inners.map (fun s => (protect_tokens s).2)

/-- The first pass of `translate_strings` starting from the empty cache. -/
def firstPassOf (inners : List String) : List (String × String) × List String :=
  firstPassGo (protectedOf inners) []

/-- The batches handed to the provider by a run of `translate_strings`. -/
def sentBatches (inners : List String) (maxChars : Nat) : List (List String) :=
  yield_batches (firstPassOf inners).2 maxChars

/-- All cache write events of a run, in program order (first pass, then
batch loop; an aborted run contributes no loop writes here, and every
claim about `cacheWrites` concerns completed runs). -/
def cacheWrites (provider : List String → Nat → RawOutput) (inners : List String)
    (maxChars maxRetries : Nat) : List (String × String) :=
  (firstPassOf inners).1 ++
    (match batchLoop provider maxRetries (sentBatches inners maxChars) with
     | .ok ws => ws
     | .error _ => [])

/-- The cached translation looked up for every unit (before token
restoration), in input order. -/
def resolvedOf (provider : List String → Nat → RawOutput) (inners : List String)
    (maxChars maxRetries : Nat) : List String :=
  (protectedOf inners).map
    (fun t => (dictGet (cacheWrites provider inners maxChars maxRetries) t).getD "")

/-- `translate_strings(inners, ..., max_chars, max_retries)` with the
provider abstracted: protection, dedup, batching, retried translation,
cache fill, lookup, final count check and token restoration. -/
def translate_strings (provider : List String → Nat → RawOutput) (inners : List String)
    (maxChars maxRetries : Nat) : Except RunError (List String) :=
  let prot := protectedOf inners
  let tms := tokenMapsOf inners
  let fp := firstPassGo prot []
  let batches := yield_batches fp.2 maxChars
  match batchLoop provider maxRetries batches with
  | .error e => .error e
  | .ok ws =>
    let allW := fp.1 ++ ws
    let looked := prot.map (fun t => dictGet allW t)
    if looked.any (fun o => o.isNone) then .error .keyError
    else
      let translated := looked.map (fun o => o.getD "")
      if translated.length ≠ tms.length then .error .finalCountMismatch
      else .ok ((translated.zip tms).map (fun p => unprotect_tokens p.1 p.2))

/-! ### Batching within the character budget (C2) -/

theorem SEP_length : SEP.length = 11 := rfl

theorem strLength_pos_of_ne_empty (s : String) (h : s ≠ "") : 0 < s.length := by
  cases s with
  | mk data =>
    cases data with
    | nil => exact absurd rfl h
    | cons c cs => simp [String.length]

theorem serializedSize_singleton (t : String) : serializedSize [t] = t.length := by
  simp [serializedSize]

theorem serializedSize_append_one (b : List String) (t : String) (hb : b ≠ []) :
    serializedSize (b ++ [t]) = serializedSize b + SEP.length + t.length := by
  have hlen : 1 ≤ b.length := by
    cases b with
    | nil => exact absurd rfl hb
    | cons x xs => simp
  simp only [serializedSize, List.map_append, List.sum_append, List.length_append,
    List.map_cons, List.map_nil, List.sum_cons, List.sum_nil, List.length_cons,
    List.length_nil, SEP_length]
  omega

theorem yieldBatchesGo_nil (maxChars : Nat) (batch : List String) (length : Nat) :
    yieldBatchesGo [] maxChars batch length = if batch.isEmpty then [] else [batch] := rfl

theorem yieldBatchesGo_cons_fo (text : String) (rest : List String) (maxChars : Nat)
    (batch0 : List String) (length0 : Nat)
    (hfl : batch0 ≠ [] ∧ length0 + SEP.length + text.length > maxChars)
    (hov : text.length > maxChars) :
    yieldBatchesGo (text :: rest) maxChars batch0 length0 =
      [batch0] ++ [[text]] ++ yieldBatchesGo rest maxChars [] 0 := by
  simp only [yieldBatchesGo]
  rw [if_pos hov, if_pos hfl]

theorem yieldBatchesGo_cons_fa (text : String) (rest : List String) (maxChars : Nat)
    (batch0 : List String) (length0 : Nat)
    (hfl : batch0 ≠ [] ∧ length0 + SEP.length + text.length > maxChars)
    (hov : ¬ text.length > maxChars) :
    yieldBatchesGo (text :: rest) maxChars batch0 length0 =
      [batch0] ++ yieldBatchesGo rest maxChars [text] text.length := by
  simp only [yieldBatchesGo]
  rw [if_neg hov, if_pos hfl, if_pos hfl, if_pos hfl]
  simp

theorem yieldBatchesGo_cons_no (text : String) (rest : List String) (maxChars : Nat)
    (batch0 : List String) (length0 : Nat)
    (hfl : ¬ (batch0 ≠ [] ∧ length0 + SEP.length + text.length > maxChars))
    (hov : text.length > maxChars) :
    yieldBatchesGo (text :: rest) maxChars batch0 length0 =
      [[text]] ++ yieldBatchesGo rest maxChars [] 0 := by
  simp only [yieldBatchesGo]
  rw [if_pos hov, if_neg hfl]
  simp

theorem yieldBatchesGo_cons_na (text : String) (rest : List String) (maxChars : Nat)
    (batch0 : List String) (length0 : Nat)
    (hfl : ¬ (batch0 ≠ [] ∧ length0 + SEP.length + text.length > maxChars))
    (hov : ¬ text.length > maxChars) :
    yieldBatchesGo (text :: rest) maxChars batch0 length0 =
      yieldBatchesGo rest maxChars (batch0 ++ [text])
        (length0 + text.length + if length0 ≠ 0 then SEP.length else 0) := by
  simp only [yieldBatchesGo]
  rw [if_neg hov, if_neg hfl, if_neg hfl, if_neg hfl]
  simp

theorem yieldBatchesGo_sound (maxChars : Nat) :
    ∀ (strings : List String) (batch : List String) (length : Nat),
    (∀ s ∈ strings, s ≠ "") →
    (batch = [] → length = 0) →
    (batch ≠ [] → length = serializedSize batch ∧ length ≤ maxChars ∧ 0 < length ∧
      ∀ t ∈ batch, t.length ≤ maxChars) →
    ∀ b ∈ yieldBatchesGo strings maxChars batch length,
      (serializedSize b ≤ maxChars ∨ ∃ t, b = [t] ∧ maxChars < t.length) ∧
      (∀ t ∈ b, maxChars < t.length → b = [t]) := by
  intro strings
  induction strings with
  | nil =>
    intro batch length _ _ hinv b hb
    rw [yieldBatchesGo_nil] at hb
    by_cases hbe : batch.isEmpty
    · simp [hbe] at hb
    · rw [if_neg hbe, List.mem_singleton] at hb
      subst hb
      have hne : b ≠ [] := by
        intro h; rw [h] at hbe; exact hbe rfl
      obtain ⟨h1, h2, _, h4⟩ := hinv hne
      refine ⟨Or.inl (h1 ▸ h2), ?_⟩
      intro t ht hlt
      exact absurd hlt (by have := h4 t ht; omega)
  | cons text rest ih =>
    intro batch length hne hemp hinv b hb
    have hneR : ∀ s ∈ rest, s ≠ "" := fun s hs => hne s (List.mem_cons_of_mem _ hs)
    have hneT : text ≠ "" := hne text (List.mem_cons_self _ _)
    have htpos : 0 < text.length := strLength_pos_of_ne_empty text hneT
    have hflushOK : batch ≠ [] →
        (serializedSize batch ≤ maxChars ∨ ∃ t, batch = [t] ∧ maxChars < t.length) ∧
        (∀ t ∈ batch, maxChars < t.length → batch = [t]) := by
      intro hx
      obtain ⟨h1, h2, _, h4⟩ := hinv hx
      refine ⟨Or.inl (h1 ▸ h2), ?_⟩
      intro t ht hlt
      exact absurd hlt (by have := h4 t ht; omega)
    have hsingleton : maxChars < text.length →
        (serializedSize [text] ≤ maxChars ∨ ∃ t, [text] = [t] ∧ maxChars < t.length) ∧
        (∀ t ∈ [text], maxChars < t.length → [text] = [t]) := by
      intro hov
      refine ⟨Or.inr ⟨text, rfl, hov⟩, ?_⟩
      intro t ht _
      rw [List.mem_singleton] at ht
      subst ht; rfl
    have hfresh : ∀ b ∈ yieldBatchesGo rest maxChars [] 0,
        (serializedSize b ≤ maxChars ∨ ∃ t, b = [t] ∧ maxChars < t.length) ∧
        (∀ t ∈ b, maxChars < t.length → b = [t]) :=
      fun b hb => ih [] 0 hneR (fun _ => rfl) (fun h => absurd rfl h) b hb
    by_cases hfl : batch ≠ [] ∧ length + SEP.length + text.length > maxChars
    · by_cases hov : text.length > maxChars
      · rw [yieldBatchesGo_cons_fo text rest maxChars batch length hfl hov] at hb
        simp only [List.mem_append, List.mem_singleton] at hb
        rcases hb with (hb | hb) | hb
        · subst hb; exact hflushOK hfl.1
        · subst hb; exact hsingleton hov
        · exact hfresh b hb
      · rw [yieldBatchesGo_cons_fa text rest maxChars batch length hfl hov] at hb
        simp only [List.singleton_append, List.mem_cons] at hb
        rcases hb with hb | hb
        · subst hb; exact hflushOK hfl.1
        · push_neg at hov
          refine ih [text] text.length hneR (by simp) ?_ b hb
          intro _
          refine ⟨(serializedSize_singleton text).symm, hov, htpos, ?_⟩
          intro t ht
          rw [List.mem_singleton] at ht
          subst ht; exact hov
    · by_cases hov : text.length > maxChars
      · rw [yieldBatchesGo_cons_no text rest maxChars batch length hfl hov] at hb
        simp only [List.singleton_append, List.mem_cons] at hb
        rcases hb with hb | hb
        · subst hb; exact hsingleton hov
        · exact hfresh b hb
      · rw [yieldBatchesGo_cons_na text rest maxChars batch length hfl hov] at hb
        push_neg at hov
        refine ih (batch ++ [text]) _ hneR (by simp) ?_ b hb
        intro _
        by_cases hbe : batch = []
        · subst hbe
          have hl0 : length = 0 := hemp rfl
          subst hl0
          simp only [List.nil_append, ne_eq, not_true_eq_false, reduceIte]
          refine ⟨by simp [serializedSize], by simpa using hov, by simpa using htpos, ?_⟩
          intro t ht
          rw [List.mem_singleton] at ht
          subst ht; exact hov
        · obtain ⟨h1, h2, h3, h4⟩ := hinv hbe
          have hlen : length ≠ 0 := by omega
          have hfit : ¬ (length + SEP.length + text.length > maxChars) := fun hx => hfl ⟨hbe, hx⟩
          rw [if_pos hlen]
          refine ⟨?_, by omega, by omega, ?_⟩
          · rw [serializedSize_append_one batch text hbe, ← h1]
            omega
          · intro t ht
            rw [List.mem_append, List.mem_singleton] at ht
            rcases ht with ht | ht
            · exact h4 t ht
            · subst ht; exact hov

/-- C2: every batch emitted by `yield_batches` on non-empty strings has
serialized size (item lengths plus one separator between consecutive
items) at most the budget, except a singleton whose sole item itself
exceeds the budget; an oversized item is always emitted alone. -/
theorem yield_batches_budget (strings : List String) (maxChars : Nat)
    (hne : ∀ s ∈ strings, s ≠ "") :
    ∀ b ∈ yield_batches strings maxChars,
      (serializedSize b ≤ maxChars ∨ ∃ t, b = [t] ∧ maxChars < t.length) ∧
      (∀ t ∈ b, maxChars < t.length → b = [t]) :=
  yieldBatchesGo_sound maxChars strings [] 0 hne (fun _ => rfl) (fun h => absurd rfl h)

/-- Witness for C2 at the spec's scenario 3: budget 10 with inputs
`["abcdefghij", "k"]`. -/
theorem yield_batches_budget_witness :
    (∀ s ∈ (["abcdefghij", "k"] : List String), s ≠ "") ∧
    (∀ b ∈ yield_batches ["abcdefghij", "k"] 10,
      (serializedSize b ≤ 10 ∨ ∃ t, b = [t] ∧ 10 < t.length) ∧
      (∀ t ∈ b, 10 < t.length → b = [t])) :=
  ⟨by decide, yield_batches_budget ["abcdefghij", "k"] 10 (by decide)⟩

/-! ### Retry with bounded attempts (C3) -/

theorem retryAux_ok_of_first_success (call : Nat → Except String (List String))
    (batch : List String) (res : List String) (k : Nat) :
    ∀ (remaining idx : Nat), (∀ i, i < k → ∃ e, call i = .error e) →
    call k = .ok res → idx ≤ k → k ≤ idx + remaining →
    retryAux call batch idx remaining = .ok res := by
  intro remaining
  induction remaining with
  | zero =>
    intro idx hfail hok hle hge
    have hik : idx = k := by omega
    subst hik
    simp [retryAux, hok]
  | succ r ihr =>
    intro idx hfail hok hle hge
    by_cases hik : idx = k
    · subst hik
      simp [retryAux, hok]
    · have hlt : idx < k := by omega
      obtain ⟨e, he⟩ := hfail idx hlt
      simp only [retryAux, he]
      exact ihr (idx + 1) hfail hok (by omega) (by omega)

theorem retryAux_error_of_all_fail (call : Nat → Except String (List String))
    (batch : List String) (es : Nat → String) :
    ∀ (remaining idx : Nat), (∀ i, idx ≤ i → i ≤ idx + remaining → call i = .error (es i)) →
    retryAux call batch idx remaining = .error (mkFatal batch (es (idx + remaining))) := by
  intro remaining
  induction remaining with
  | zero =>
    intro idx hfail
    have h := hfail idx (Nat.le_refl idx) (by omega)
    simp [retryAux, h]
  | succ r ihr =>
    intro idx hfail
    have h := hfail idx (Nat.le_refl idx) (by omega)
    simp only [retryAux, h]
    have hrec := ihr (idx + 1) (fun i h1 h2 => hfail i (by omega) (by omega))
    have harg : idx + 1 + r = idx + (r + 1) := by omega
    rw [hrec, harg]

theorem retryAux_congr_prefix (call call' : Nat → Except String (List String))
    (batch : List String) :
    ∀ (remaining idx : Nat), (∀ i, idx ≤ i → i ≤ idx + remaining → call i = call' i) →
    retryAux call batch idx remaining = retryAux call' batch idx remaining := by
  intro remaining
  induction remaining with
  | zero =>
    intro idx hagree
    have h := hagree idx (Nat.le_refl idx) (by omega)
    simp [retryAux, h]
  | succ r ihr =>
    intro idx hagree
    have h := hagree idx (Nat.le_refl idx) (by omega)
    simp only [retryAux, h]
    cases hc : call' idx with
    | ok v => rfl
    | error e => exact ihr (idx + 1) (fun i h1 h2 => hagree i (by omega) (by omega))

/-- C3: if the underlying call fails on its first `k` invocations and
succeeds on invocation `k + 1`, the retry wrapper with `maxRetries ≥ k`
returns that success; if the first `maxRetries + 1` invocations all
fail, it fails fatally with the excerpt of the batch's first item, the
batch size and the last attempt's error — after exactly
`maxRetries + 1` invocations (the outcome depends on no invocation
beyond index `maxRetries`). -/
theorem translate_batch_with_retry_semantics
    (call call' : Nat → Except String (List String)) (batch : List String)
    (maxRetries k : Nat) (res : List String) (es : Nat → String) :
    ((∀ i, i < k → ∃ e, call i = .error e) → call k = .ok res → k ≤ maxRetries →
      translate_batch_with_retry call batch maxRetries = .ok res) ∧
    ((∀ i, i ≤ maxRetries → call i = .error (es i)) →
      translate_batch_with_retry call batch maxRetries =
        .error ⟨strTake (batch.headD "") 80, batch.length, es maxRetries⟩) ∧
    ((∀ i, i ≤ maxRetries → call i = call' i) →
      translate_batch_with_retry call batch maxRetries =
        translate_batch_with_retry call' batch maxRetries) := by
  refine ⟨?_, ?_, ?_⟩
  · intro hfail hok hk
    exact retryAux_ok_of_first_success call batch res k maxRetries 0 hfail hok (by omega) (by omega)
  · intro hfail
    have hrec := retryAux_error_of_all_fail call batch es maxRetries 0
      (fun i h1 h2 => hfail i (by omega))
    rw [Nat.zero_add] at hrec
    rw [translate_batch_with_retry, hrec]
    rfl
  · intro hagree
    exact retryAux_congr_prefix call call' batch maxRetries 0 (fun i h1 h2 => hagree i (by omega))

/-- Witness for C3: a call failing twice then succeeding, with
`maxRetries = 3 ≥ 2`; and a call that always fails, with
`maxRetries = 1` exhausted after two invocations. -/
theorem translate_batch_with_retry_semantics_witness :
    translate_batch_with_retry
        (fun i => if i < 2 then .error "boom" else .ok ["hola"]) ["hi"] 3 = .ok ["hola"] ∧
    translate_batch_with_retry (fun i => .error (toString i)) ["hi"] 1 =
      .error ⟨strTake (["hi"].headD "") 80, ["hi"].length, toString 1⟩ :=
  ⟨(translate_batch_with_retry_semantics
      (fun i => if i < 2 then .error "boom" else .ok ["hola"])
      (fun i => .error (toString i)) ["hi"] 3 2 ["hola"] (fun i => toString i)).1
      (fun i hi => ⟨"boom", by rw [if_pos hi]⟩) (by norm_num) (by omega),
   ((translate_batch_with_retry_semantics (fun i => .error (toString i))
      (fun i => .error (toString i)) ["hi"] 1 0 [] (fun i => toString i)).2).1
      (fun i _ => rfl)⟩

/-! ### Validation and blank fallback in translate_batch (C7, C8) -/

theorem translate_batch_ok_elim (out : List (Option String)) (batch res : List String)
    (h : translate_batch (.ofList out) batch = .ok res) :
    out.length = batch.length ∧ res = List.zipWith safeItem batch out := by
  by_cases hl : out.length ≠ batch.length
  · rw [translate_batch, if_pos hl] at h
    exact absurd h (by simp)
  · push_neg at hl
    rw [translate_batch, if_neg (by omega)] at h
    exact ⟨hl, by injection h with h2; exact h2.symm⟩

/-- C7: for each position of a batch, a blank (empty or whitespace-only)
returned item makes `translate_batch` keep the original protected text
of that position; a non-blank returned item is taken as is. -/
theorem translate_batch_blank_fallback (batch : List String) (out : List (Option String))
    (res : List String) (h : translate_batch (.ofList out) batch = .ok res)
    (i : Nat) (p : String) (t : Option String)
    (hp : batch[i]? = some p) (ht : out[i]? = some t) :
    (isBlank (pyStr t) = true → res[i]? = some p) ∧
    (isBlank (pyStr t) = false → res[i]? = some (pyStr t)) := by
  obtain ⟨hlen, hres⟩ := translate_batch_ok_elim out batch res h
  have hz : res[i]? = some (safeItem p t) := by
    rw [hres, List.getElem?_zipWith, hp, ht]
  constructor
  · intro hbl
    rw [hz]
    simp [safeItem, hbl]
  · intro hbl
    rw [hz]
    simp [safeItem, hbl]

theorem retryAux_shift (call : Nat → Except String (List String)) (batch : List String) :
    ∀ (remaining idx : Nat),
    retryAux call batch (idx + 1) remaining =
      retryAux (fun i => call (i + 1)) batch idx remaining := by
  intro remaining
  induction remaining with
  | zero => intro idx; rfl
  | succ r ihr =>
    intro idx
    simp only [retryAux]
    cases call (idx + 1) with
    | ok v => rfl
    | error e => exact ihr (idx + 1)

/-- C8: `translate_batch` returns normally exactly when the provider's
output is a list of the batch's length; a non-list output or a length
mismatch is an error, and the retry wrapper treats such an error as one
failed attempt, continuing with the remaining attempts. -/
theorem translate_batch_validation (output : RawOutput) (batch : List String)
    (outs : Nat → RawOutput) (e : String) :
    ((∃ res, translate_batch output batch = .ok res) ↔
      ∃ out, output = .ofList out ∧ out.length = batch.length) ∧
    ((output = .nonList ∨ ∃ out, output = .ofList out ∧ out.length ≠ batch.length) →
      ∃ msg, translate_batch output batch = .error msg) ∧
    (translate_batch (outs 0) batch = .error e → ∀ m : Nat,
      translate_batch_with_retry (fun i => translate_batch (outs i) batch) batch (m + 1) =
        translate_batch_with_retry (fun i => translate_batch (outs (i + 1)) batch) batch m) := by
  refine ⟨⟨?_, ?_⟩, ?_, ?_⟩
  · rintro ⟨res, hres⟩
    cases output with
    | nonList => exact absurd hres (by simp [translate_batch])
    | ofList out =>
      refine ⟨out, rfl, ?_⟩
      exact (translate_batch_ok_elim out batch res hres).1
  · rintro ⟨out, hout, hlen⟩
    subst hout
    exact ⟨List.zipWith safeItem batch out, by rw [translate_batch, if_neg (by omega)]⟩
  · rintro (hout | ⟨out, hout, hlen⟩)
    · subst hout
      exact ⟨_, rfl⟩
    · subst hout
      exact ⟨_, by rw [translate_batch, if_pos hlen]⟩
  · intro herr m
    rw [translate_batch_with_retry, translate_batch_with_retry]
    show retryAux _ batch 0 (m + 1) = _
    simp only [retryAux, herr]
    exact retryAux_shift _ batch m 0

/-- Witness for C7: a mock response with a blank item at position 0 and
a non-blank item at position 1. -/
theorem translate_batch_blank_fallback_witness :
    (isBlank (pyStr (some " ")) = true →
      (List.zipWith safeItem ["orig0", "orig1"] [some " ", some "tr1"])[0]? = some "orig0") ∧
    (isBlank (pyStr (some " ")) = false →
      (List.zipWith safeItem ["orig0", "orig1"] [some " ", some "tr1"])[0]? = some (pyStr (some " "))) :=
  translate_batch_blank_fallback ["orig0", "orig1"] [some " ", some "tr1"]
    (List.zipWith safeItem ["orig0", "orig1"] [some " ", some "tr1"]) rfl 0 "orig0" (some " ")
    (by decide) (by decide)

/-- Witness for C8 at a non-list output, a short list output and an
always-short mock provider. -/
theorem translate_batch_validation_witness :
    ((∃ res, translate_batch (.ofList [some "a", some "b"]) ["x", "y"] = .ok res) ↔
      ∃ out, RawOutput.ofList [some "a", some "b"] = .ofList out ∧ out.length = 2) ∧
    ((RawOutput.ofList [some "a"] = .nonList ∨
      ∃ out, RawOutput.ofList [some "a"] = .ofList out ∧ out.length ≠ 2) →
      ∃ msg, translate_batch (.ofList [some "a"]) ["x", "y"] = .error msg) :=
  ⟨by
    have h := (translate_batch_validation (.ofList [some "a", some "b"]) ["x", "y"]
      (fun _ => RawOutput.nonList) "e").1
    simpa using h,
   by
    have h := (translate_batch_validation (.ofList [some "a"]) ["x", "y"]
      (fun _ => RawOutput.nonList) "e").2.1
    simpa using h⟩

/-! ### Structure of the protection scan -/

theorem matchPH_some_len (cs m rest : List Char) (h : matchPH cs = some (m, rest)) :
    cs = m ++ rest ∧ m ≠ [] := by
  cases cs with
  | nil => simp [matchPH] at h
  | cons c tl =>
    simp only [matchPH] at h
    by_cases hc : c = '%'
    · rw [if_pos hc] at h
      by_cases hds : (tl.takeWhile Char.isDigit).isEmpty
      · rw [if_pos hds] at h
        cases tl with
        | nil => simp at h
        | cons t rest2 =>
          dsimp only at h
          by_cases ht : t ∈ sdif
          · rw [if_pos ht] at h
            injection h with h2
            rw [Prod.mk.injEq] at h2
            obtain ⟨hm, hr⟩ := h2
            subst hm; subst hr; subst hc
            exact ⟨rfl, by simp⟩
          · rw [if_neg ht] at h
            exact absurd h (by simp)
      · rw [if_neg hds] at h
        cases hdw : tl.dropWhile Char.isDigit with
        | nil => rw [hdw] at h; simp at h
        | cons d tl2 =>
          cases tl2 with
          | nil => rw [hdw] at h; simp at h
          | cons t rest3 =>
            rw [hdw] at h
            dsimp only at h
            by_cases hcond : d = '$' ∧ t ∈ sdif
            · rw [if_pos hcond] at h
              injection h with h2
              rw [Prod.mk.injEq] at h2
              obtain ⟨hm, hr⟩ := h2
              subst hm; subst hr; subst hc
              have htl : tl = tl.takeWhile Char.isDigit ++ (d :: t :: rest3) := by
                rw [← hdw, List.takeWhile_append_dropWhile]
              constructor
              · conv_lhs => rw [htl]
                rw [hcond.1]
                simp
              · simp
            · rw [if_neg hcond] at h
              exact absurd h (by simp)
    · rw [if_neg hc] at h
      by_cases hb : c = '\\'
      · rw [if_pos hb] at h
        cases tl with
        | nil => simp at h
        | cons c2 rest2 =>
          dsimp only at h
          by_cases h2 : c2 = 'n' ∨ c2 = 't' ∨ c2 = 'r'
          · rw [if_pos h2] at h
            injection h with hinj
            rw [Prod.mk.injEq] at hinj
            obtain ⟨hm, hr⟩ := hinj
            subst hm; subst hr; subst hb
            exact ⟨rfl, by simp⟩
          · rw [if_neg h2] at h
            exact absurd h (by simp)
      · rw [if_neg hb] at h
        exact absurd h (by simp)

theorem matchPH_rest_lt (cs m rest : List Char) (h : matchPH cs = some (m, rest)) :
    rest.length < cs.length := by
  obtain ⟨happ, hne⟩ := matchPH_some_len cs m rest h
  rw [happ, List.length_append]
  cases m with
  | nil => exact absurd rfl hne
  | cons x xs => simp

theorem protectAuxF_irrel : ∀ (f1 : Nat), ∀ (f2 : Nat) (cs : List Char) (i : Nat),
    cs.length ≤ f1 → cs.length ≤ f2 → protectAuxF f1 cs i = protectAuxF f2 cs i := by
  intro f1
  induction f1 with
  | zero =>
    intro f2 cs i h1 _
    have hcs : cs = [] := List.eq_nil_of_length_eq_zero (by omega)
    subst hcs
    cases f2 with
    | zero => rfl
    | succ g => simp [protectAuxF, matchPH]
  | succ a iha =>
    intro f2 cs i h1 h2
    cases f2 with
    | zero =>
      have hcs : cs = [] := List.eq_nil_of_length_eq_zero (by omega)
      subst hcs
      simp [protectAuxF, matchPH]
    | succ b =>
      simp only [protectAuxF]
      cases hm : matchPH cs with
      | some pr =>
        obtain ⟨m, rest⟩ := pr
        have hlt := matchPH_rest_lt cs m rest hm
        dsimp only
        rw [iha b rest (i + 1) (by omega) (by omega)]
      | none =>
        cases cs with
        | nil => rfl
        | cons c rest =>
          dsimp only
          rw [iha b rest i (by simp at h1; omega) (by simp at h2; omega)]

theorem protectRun_nil (i : Nat) : protectRun [] i = ([], []) := rfl

theorem protectRun_matched (cs m rest : List Char) (i : Nat)
    (hm : matchPH cs = some (m, rest)) :
    protectRun cs i = (tokL i ++ (protectRun rest (i + 1)).1,
      (tokL i, m) :: (protectRun rest (i + 1)).2) := by
  have hne : cs ≠ [] := by
    intro h; subst h; simp [matchPH] at hm
  cases hcs : cs with
  | nil => exact absurd hcs hne
  | cons c tl =>
    subst hcs
    have hlt := matchPH_rest_lt _ m rest hm
    show protectAuxF (tl.length + 1) (c :: tl) i = _
    simp only [protectAuxF, hm]
    rw [protectAuxF_irrel tl.length rest.length rest (i + 1) (by simp at hlt; omega) (by omega)]
    rfl

theorem protectRun_unmatched (c : Char) (rest : List Char) (i : Nat)
    (hm : matchPH (c :: rest) = none) :
    protectRun (c :: rest) i = (c :: (protectRun rest i).1, (protectRun rest i).2) := by
  show protectAuxF (rest.length + 1) (c :: rest) i = _
  simp only [protectAuxF, hm]
  rfl

theorem strmk_data (s : String) : String.mk s.data = s := rfl

theorem tokL_head_underscore (i : Nat) (c : Char) (rest : List Char)
    (h : tokL i = c :: rest) : c = '_' := by
  simp only [tokL] at h
  injection h with h1 _
  exact h1.symm

/-- Any all-whitespace protection result comes from a scan with no
matches: the protected text is the input itself and the token map is
empty. -/
theorem protectRun_all_ws : ∀ (n : Nat) (cs : List Char), cs.length ≤ n → ∀ i : Nat,
    ((protectRun cs i).1.all Char.isWhitespace = true) → protectRun cs i = (cs, []) := by
  intro n
  induction n with
  | zero =>
    intro cs h i _
    have hcs : cs = [] := List.eq_nil_of_length_eq_zero (by omega)
    subst hcs
    rfl
  | succ a iha =>
    intro cs h i hws
    cases hm : matchPH cs with
    | some pr =>
      obtain ⟨m, rest⟩ := pr
      rw [protectRun_matched cs m rest i hm] at hws
      exfalso
      simp only [List.all_append, Bool.and_eq_true] at hws
      have h1 := hws.1
      simp only [tokL, List.all_cons, Bool.and_eq_true] at h1
      exact absurd h1.1 (by decide)
    | none =>
      cases cs with
      | nil => rfl
      | cons c rest =>
        rw [protectRun_unmatched c rest i hm] at hws ⊢
        simp only [List.all_cons, Bool.and_eq_true] at hws
        have hrec := iha rest (by simp at h; omega) i hws.2
        rw [hrec]

/-- A whitespace-only protected text witnesses that protection changed
nothing: the protected text is the original and the token map is empty. -/
theorem protect_blank_id (s : String) (h : isBlank (protect_tokens s).1 = true) :
    (protect_tokens s).1 = s ∧ (protect_tokens s).2 = [] := by
  have hh : ((protectRun s.data 0).1.all Char.isWhitespace = true) := h
  have hrw := protectRun_all_ws s.data.length s.data (Nat.le_refl _) 0 hh
  constructor
  · show String.mk (protectRun s.data 0).1 = s
    rw [hrw]
  · show ((protectRun s.data 0).2.map _) = []
    rw [hrw]
    rfl

/-! ### The content of the batches (C4, C6 support) -/

theorem joinAll_append (a b : List (List α)) : joinAll (a ++ b) = joinAll a ++ joinAll b := by
  induction a with
  | nil => rfl
  | cons x xs ih => simp [joinAll, ih]

theorem mem_joinAll (x : α) (L : List (List α)) : x ∈ joinAll L ↔ ∃ l ∈ L, x ∈ l := by
  induction L with
  | nil => simp [joinAll]
  | cons l ls ih =>
    simp only [joinAll, List.mem_append, ih, List.mem_cons]
    constructor
    · rintro (hx | ⟨l2, h1, h2⟩)
      · exact ⟨l, Or.inl rfl, hx⟩
      · exact ⟨l2, Or.inr h1, h2⟩
    · rintro ⟨l2, (rfl | h1), h2⟩
      · exact Or.inl h2
      · exact Or.inr ⟨l2, h1, h2⟩

/-- The batch plan is a partition: concatenating the emitted batches
gives back the input sequence (with the accumulator in front). -/
theorem joinAll_yieldBatchesGo (maxChars : Nat) :
    ∀ (strings batch : List String) (length : Nat),
    joinAll (yieldBatchesGo strings maxChars batch length) = batch ++ strings := by
  intro strings
  induction strings with
  | nil =>
    intro batch length
    rw [yieldBatchesGo_nil]
    by_cases hbe : batch.isEmpty
    · rw [if_pos hbe]
      have : batch = [] := by
        cases batch with
        | nil => rfl
        | cons x xs => simp at hbe
      simp [this, joinAll]
    · rw [if_neg hbe]
      simp [joinAll]
  | cons text rest ih =>
    intro batch length
    by_cases hfl : batch ≠ [] ∧ length + SEP.length + text.length > maxChars
    · by_cases hov : text.length > maxChars
      · rw [yieldBatchesGo_cons_fo text rest maxChars batch length hfl hov]
        rw [joinAll_append, joinAll_append, ih]
        simp [joinAll]
      · rw [yieldBatchesGo_cons_fa text rest maxChars batch length hfl hov]
        rw [joinAll_append, ih]
        simp [joinAll]
    · by_cases hov : text.length > maxChars
      · have hbe : batch = [] := by
          by_contra hx
          have hsep : SEP.length = 11 := rfl
          exact hfl ⟨hx, by omega⟩
        subst hbe
        rw [yieldBatchesGo_cons_no text rest maxChars [] length hfl hov]
        rw [joinAll_append, ih]
        simp [joinAll]
      · rw [yieldBatchesGo_cons_na text rest maxChars batch length hfl hov, ih]
        simp

theorem joinAll_yield_batches (strings : List String) (maxChars : Nat) :
    joinAll (yield_batches strings maxChars) = strings :=
  joinAll_yieldBatchesGo maxChars strings [] 0

/-! ### The first pass: dedup queueing and the blank policy -/

theorem firstPassGo_uniq_spec : ∀ (texts keys : List String),
    ∀ v ∈ (firstPassGo texts keys).2, isBlank v = false ∧ v ∈ texts ∧ v ∉ keys := by
  intro texts
  induction texts with
  | nil => intro keys v hv; simp [firstPassGo] at hv
  | cons t rest ih =>
    intro keys v hv
    by_cases hb : isBlank t
    · rw [firstPassGo, if_pos hb] at hv
      dsimp only at hv
      obtain ⟨h1, h2, h3⟩ := ih _ v hv
      refine ⟨h1, List.mem_cons_of_mem _ h2, fun hk => h3 ?_⟩
      by_cases ht : t ∈ keys
      · rwa [if_pos ht]
      · rw [if_neg ht]
        exact List.mem_append_left _ hk
    · rw [firstPassGo, if_neg hb] at hv
      by_cases ht : t ∈ keys
      · rw [if_pos ht] at hv
        obtain ⟨h1, h2, h3⟩ := ih _ v hv
        exact ⟨h1, List.mem_cons_of_mem _ h2, h3⟩
      · rw [if_neg ht] at hv
        dsimp only at hv
        rw [List.mem_cons] at hv
        rcases hv with hv | hv
        · subst hv
          exact ⟨by simpa using hb, List.mem_cons_self _ _, ht⟩
        · obtain ⟨h1, h2, h3⟩ := ih _ v hv
          refine ⟨h1, List.mem_cons_of_mem _ h2, fun hk => h3 (List.mem_append_left _ hk)⟩

theorem firstPassGo_uniq_nodup : ∀ (texts keys : List String),
    (firstPassGo texts keys).2.Nodup := by
  intro texts
  induction texts with
  | nil => intro keys; simp [firstPassGo]
  | cons t rest ih =>
    intro keys
    by_cases hb : isBlank t
    · rw [firstPassGo, if_pos hb]
      exact ih _
    · rw [firstPassGo, if_neg hb]
      by_cases ht : t ∈ keys
      · rw [if_pos ht]
        exact ih _
      · rw [if_neg ht]
        dsimp only
        refine List.Nodup.cons ?_ (ih _)
        intro hmem
        have := (firstPassGo_uniq_spec rest (keys ++ [t]) t hmem).2.2
        exact this (List.mem_append_right _ (List.mem_singleton.mpr rfl))

theorem firstPassGo_uniq_complete : ∀ (texts keys : List String) (v : String),
    isBlank v = false → v ∈ texts → v ∉ keys → v ∈ (firstPassGo texts keys).2 := by
  intro texts
  induction texts with
  | nil => intro keys v _ hv _; simp at hv
  | cons t rest ih =>
    intro keys v hbv hv hk
    rw [List.mem_cons] at hv
    by_cases hb : isBlank t
    · rw [firstPassGo, if_pos hb]
      dsimp only
      have hvt : v ≠ t := fun h => by rw [h] at hbv; rw [hbv] at hb; exact Bool.noConfusion hb
      rcases hv with hv | hv
      · exact absurd hv hvt
      · refine ih _ v hbv hv ?_
        by_cases ht : t ∈ keys
        · rwa [if_pos ht]
        · rw [if_neg ht]
          intro hx
          rw [List.mem_append, List.mem_singleton] at hx
          rcases hx with hx | hx
          · exact hk hx
          · exact hvt hx
    · rw [firstPassGo, if_neg hb]
      by_cases ht : t ∈ keys
      · rw [if_pos ht]
        rcases hv with hv | hv
        · exact absurd (hv ▸ ht) hk
        · exact ih _ v hbv hv hk
      · rw [if_neg ht]
        dsimp only
        rcases hv with hv | hv
        · subst hv
          exact List.mem_cons_self _ _
        · by_cases hvt : v = t
          · subst hvt
            exact List.mem_cons_self _ _
          · refine List.mem_cons_of_mem _ (ih _ v hbv hv ?_)
            intro hx
            rw [List.mem_append, List.mem_singleton] at hx
            rcases hx with hx | hx
            · exact hk hx
            · exact hvt hx

theorem firstPassGo_writes_shape : ∀ (texts keys : List String),
    ∀ kv ∈ (firstPassGo texts keys).1,
      (isBlank kv.1 = true ∧ kv.2 = kv.1) ∨ (isBlank kv.1 = false ∧ kv.2 = "") := by
  intro texts
  induction texts with
  | nil => intro keys kv hkv; simp [firstPassGo] at hkv
  | cons t rest ih =>
    intro keys kv hkv
    by_cases hb : isBlank t
    · rw [firstPassGo, if_pos hb] at hkv
      dsimp only at hkv
      rw [List.mem_cons] at hkv
      rcases hkv with hkv | hkv
      · subst hkv
        exact Or.inl ⟨hb, rfl⟩
      · exact ih _ kv hkv
    · rw [firstPassGo, if_neg hb] at hkv
      by_cases ht : t ∈ keys
      · rw [if_pos ht] at hkv
        exact ih _ kv hkv
      · rw [if_neg ht] at hkv
        dsimp only at hkv
        rw [List.mem_cons] at hkv
        rcases hkv with hkv | hkv
        · subst hkv
          exact Or.inr ⟨by simpa using hb, rfl⟩
        · exact ih _ kv hkv

theorem firstPassGo_blank_write : ∀ (texts keys : List String) (p : String),
    p ∈ texts → isBlank p = true → (p, p) ∈ (firstPassGo texts keys).1 := by
  intro texts
  induction texts with
  | nil => intro keys p hp _; simp at hp
  | cons t rest ih =>
    intro keys p hp hbp
    rw [List.mem_cons] at hp
    by_cases hb : isBlank t
    · rw [firstPassGo, if_pos hb]
      dsimp only
      rcases hp with hp | hp
      · subst hp
        exact List.mem_cons_self _ _
      · exact List.mem_cons_of_mem _ (ih _ p hp hbp)
    · rw [firstPassGo, if_neg hb]
      have hpt : p ≠ t := fun h => hb (by rw [← h]; exact hbp)
      rcases hp with hp | hp
      · exact absurd hp hpt
      · by_cases ht : t ∈ keys
        · rw [if_pos ht]
          exact ih _ p hp hbp
        · rw [if_neg ht]
          exact List.mem_cons_of_mem _ (ih _ p hp hbp)

/-! ### Cache write traces -/

theorem firstPassGo_filter_of_mem_keys : ∀ (texts keys : List String) (k : String),
    isBlank k = false → k ∈ keys →
    (firstPassGo texts keys).1.filter (fun kv => kv.1 == k) = [] := by
  intro texts
  induction texts with
  | nil => intro keys k _ _; simp [firstPassGo]
  | cons t rest ih =>
    intro keys k hbk hk
    by_cases hb : isBlank t
    · rw [firstPassGo, if_pos hb]
      dsimp only
      rw [List.filter_cons]
      have htk : (t == k) = false := by
        rw [beq_eq_false_iff_ne]
        intro h
        rw [h, hbk] at hb
        exact Bool.noConfusion hb
      rw [if_neg (by simp [htk])]
      by_cases ht : t ∈ keys
      · rw [if_pos ht]
        exact ih _ k hbk hk
      · rw [if_neg ht]
        exact ih _ k hbk (List.mem_append_left _ hk)
    · rw [firstPassGo, if_neg hb]
      by_cases ht : t ∈ keys
      · rw [if_pos ht]
        exact ih _ k hbk hk
      · rw [if_neg ht]
        dsimp only
        rw [List.filter_cons]
        have htk : (t == k) = false := by
          rw [beq_eq_false_iff_ne]
          intro h
          exact ht (h ▸ hk)
        rw [if_neg (by simp [htk])]
        exact ih _ k hbk (List.mem_append_left _ hk)

theorem firstPassGo_filter_new : ∀ (texts keys : List String) (k : String),
    isBlank k = false → k ∉ keys → k ∈ texts →
    (firstPassGo texts keys).1.filter (fun kv => kv.1 == k) = [(k, "")] := by
  intro texts
  induction texts with
  | nil => intro keys k _ _ hk; simp at hk
  | cons t rest ih =>
    intro keys k hbk hknotin hkin
    rw [List.mem_cons] at hkin
    by_cases hb : isBlank t
    · rw [firstPassGo, if_pos hb]
      dsimp only
      have hkt : k ≠ t := fun h => by rw [h] at hbk; rw [hbk] at hb; exact Bool.noConfusion hb
      have hkin2 : k ∈ rest := by
        rcases hkin with h | h
        · exact absurd h hkt
        · exact h
      rw [List.filter_cons]
      rw [if_neg (by simp [beq_eq_false_iff_ne]; exact fun h => hkt h.symm)]
      by_cases ht : t ∈ keys
      · rw [if_pos ht]
        exact ih _ k hbk hknotin hkin2
      · rw [if_neg ht]
        refine ih _ k hbk ?_ hkin2
        intro hx
        rw [List.mem_append, List.mem_singleton] at hx
        rcases hx with hx | hx
        · exact hknotin hx
        · exact hkt hx
    · rw [firstPassGo, if_neg hb]
      by_cases ht : t ∈ keys
      · rw [if_pos ht]
        have hkt : k ≠ t := fun h => hknotin (h ▸ ht)
        have hkin2 : k ∈ rest := by
          rcases hkin with h | h
          · exact absurd h hkt
          · exact h
        exact ih _ k hbk hknotin hkin2
      · rw [if_neg ht]
        dsimp only
        rw [List.filter_cons]
        by_cases hkt : t = k
        · subst hkt
          rw [if_pos (by simp)]
          refine congrArg ((t, "") :: ·) ?_
          exact firstPassGo_filter_of_mem_keys rest (keys ++ [t]) t hbk
            (List.mem_append_right _ (List.mem_singleton.mpr rfl))
        · rw [if_neg (by simp [beq_eq_false_iff_ne]; exact hkt)]
          have hkin2 : k ∈ rest := by
            rcases hkin with h | h
            · exact absurd h.symm hkt
            · exact h
          refine ih _ k hbk ?_ hkin2
          intro hx
          rw [List.mem_append, List.mem_singleton] at hx
          rcases hx with hx | hx
          · exact hknotin hx
          · exact hkt hx.symm

theorem zip_filter_key_length : ∀ (b tr : List String) (k : String),
    tr.length = b.length →
    ((b.zip tr).filter (fun kv => kv.1 == k)).length = b.count k := by
  intro b
  induction b with
  | nil => intro tr k _; simp
  | cons x b' ih =>
    intro tr k hlen
    cases tr with
    | nil => simp at hlen
    | cons y tr' =>
      rw [List.zip_cons_cons, List.filter_cons, List.count_cons]
      simp only [List.length_cons] at hlen
      by_cases hxk : (x == k) = true
      · rw [if_pos (by simpa using hxk), if_pos hxk]
        simp only [List.length_cons]
        rw [ih tr' k (by omega)]
      · rw [if_neg (by simpa using hxk), if_neg hxk]
        rw [ih tr' k (by omega)]
        omega

theorem count_joinAll (k : String) : ∀ (L : List (List String)),
    (joinAll L).count k = (L.map (fun b => b.count k)).sum := by
  intro L
  induction L with
  | nil => simp [joinAll]
  | cons b bs ih => simp [joinAll, List.count_append, ih]

/-- Every normal return of the retry wrapper is a value of some
invocation of the underlying call. -/
theorem retryAux_ok_exists_call (call : Nat → Except String (List String))
    (batch tr : List String) :
    ∀ (remaining idx : Nat), retryAux call batch idx remaining = .ok tr →
    ∃ i, call i = .ok tr := by
  intro remaining
  induction remaining with
  | zero =>
    intro idx h
    rw [retryAux] at h
    cases hc : call idx with
    | ok v => rw [hc] at h; injection h with h2; exact ⟨idx, by rw [hc, h2]⟩
    | error e => rw [hc] at h; exact absurd h (by simp)
  | succ r ihr =>
    intro idx h
    rw [retryAux] at h
    cases hc : call idx with
    | ok v => rw [hc] at h; injection h with h2; exact ⟨idx, by rw [hc, h2]⟩
    | error e => rw [hc] at h; exact ihr (idx + 1) h

/-- The length guarantee behind C10: a normal return of the retry
wrapper around `translate_batch` always matches the batch's length. -/
theorem retry_ok_length (provider : List String → Nat → RawOutput) (b tr : List String)
    (maxRetries : Nat)
    (h : translate_batch_with_retry (batchCall provider b) b maxRetries = .ok tr) :
    tr.length = b.length := by
  obtain ⟨i, hi⟩ := retryAux_ok_exists_call (batchCall provider b) b tr maxRetries 0 h
  rw [batchCall] at hi
  cases hout : provider b i with
  | nonList => rw [hout] at hi; exact absurd hi (by simp [translate_batch])
  | ofList out =>
    rw [hout] at hi
    obtain ⟨hlen, htr⟩ := translate_batch_ok_elim out b tr hi
    rw [htr, List.length_zipWith]
    omega

/-! ### The batch loop and the post-retry check (C10 support) -/

theorem batchLoop_cons_elim (provider : List String → Nat → RawOutput) (maxRetries : Nat)
    (b : List String) (rest : List (List String)) (ws : List (String × String))
    (h : batchLoop provider maxRetries (b :: rest) = .ok ws) :
    ∃ tr ws', translate_batch_with_retry (batchCall provider b) b maxRetries = .ok tr ∧
      tr.length = b.length ∧ batchLoop provider maxRetries rest = .ok ws' ∧
      ws = b.zip tr ++ ws' := by
  rw [batchLoop] at h
  cases hr : translate_batch_with_retry (batchCall provider b) b maxRetries with
  | error f => rw [hr] at h; exact absurd h (by simp)
  | ok tr =>
    rw [hr] at h
    dsimp only at h
    have hlen : tr.length = b.length := retry_ok_length provider b tr maxRetries hr
    rw [if_neg (by omega)] at h
    cases hb : batchLoop provider maxRetries rest with
    | error e => rw [hb] at h; exact absurd h (by simp)
    | ok ws' =>
      rw [hb] at h
      injection h with h2
      exact ⟨tr, ws', rfl, hlen, rfl, h2.symm⟩

theorem batchLoop_writes_keys (provider : List String → Nat → RawOutput) (maxRetries : Nat) :
    ∀ (batches : List (List String)) (ws : List (String × String)),
    batchLoop provider maxRetries batches = .ok ws →
    ∀ kv ∈ ws, kv.1 ∈ joinAll batches := by
  intro batches
  induction batches with
  | nil =>
    intro ws h kv hkv
    rw [batchLoop] at h
    injection h with h2
    rw [← h2] at hkv
    simp at hkv
  | cons b rest ih =>
    intro ws h kv hkv
    obtain ⟨tr, ws', _, _, hb, hws⟩ := batchLoop_cons_elim provider maxRetries b rest ws h
    subst hws
    rw [List.mem_append] at hkv
    rcases hkv with hkv | hkv
    · have := List.of_mem_zip (by exact hkv : (kv.1, kv.2) ∈ b.zip tr)
      exact (mem_joinAll _ _).mpr ⟨b, List.mem_cons_self _ _, this.1⟩
    · have := ih ws' hb kv hkv
      rw [mem_joinAll] at this ⊢
      obtain ⟨l, hl, hmem⟩ := this
      exact ⟨l, List.mem_cons_of_mem _ hl, hmem⟩

theorem batchLoop_filter_length (provider : List String → Nat → RawOutput) (maxRetries : Nat) :
    ∀ (batches : List (List String)) (ws : List (String × String)) (k : String),
    batchLoop provider maxRetries batches = .ok ws →
    (ws.filter (fun kv => kv.1 == k)).length = (joinAll batches).count k := by
  intro batches
  induction batches with
  | nil =>
    intro ws k h
    rw [batchLoop] at h
    injection h with h2
    rw [← h2]
    simp [joinAll]
  | cons b rest ih =>
    intro ws k h
    obtain ⟨tr, ws', _, hlen, hb, hws⟩ := batchLoop_cons_elim provider maxRetries b rest ws h
    subst hws
    rw [List.filter_append, List.length_append, zip_filter_key_length b tr k hlen, ih ws' k hb]
    show _ = (joinAll (b :: rest)).count k
    rw [joinAll, List.count_append]

theorem batchLoop_ne_postRetry (provider : List String → Nat → RawOutput) (maxRetries : Nat) :
    ∀ (batches : List (List String)),
    batchLoop provider maxRetries batches ≠ .error .postRetryMismatch := by
  intro batches
  induction batches with
  | nil => intro h; rw [batchLoop] at h; exact absurd h (by simp)
  | cons b rest ih =>
    intro h
    rw [batchLoop] at h
    cases hr : translate_batch_with_retry (batchCall provider b) b maxRetries with
    | error f =>
      rw [hr] at h
      injection h with h2
      exact RunError.noConfusion h2
    | ok tr =>
      rw [hr] at h
      dsimp only at h
      have hlen : tr.length = b.length := retry_ok_length provider b tr maxRetries hr
      rw [if_neg (by omega)] at h
      cases hb : batchLoop provider maxRetries rest with
      | error e =>
        rw [hb] at h
        injection h with h2
        rw [h2] at hb
        exact ih hb
      | ok ws' =>
        rw [hb] at h
        exact absurd h (by simp)

theorem translate_strings_eq (provider : List String → Nat → RawOutput) (inners : List String)
    (maxChars maxRetries : Nat) :
    translate_strings provider inners maxChars maxRetries =
      match batchLoop provider maxRetries (sentBatches inners maxChars) with
      | .error e => .error e
      | .ok ws =>
        let allW := (firstPassOf inners).1 ++ ws
        let looked := (protectedOf inners).map (fun t => dictGet allW t)
        if looked.any (fun o => o.isNone) then .error .keyError
        else
          let translated := looked.map (fun o => o.getD "")
          if translated.length ≠ (tokenMapsOf inners).length then .error .finalCountMismatch
          else .ok ((translated.zip (tokenMapsOf inners)).map
            (fun p => unprotect_tokens p.1 p.2)) := rfl

/-- C10: the post-retry length check inside the batch loop of
`translate_strings` is unreachable: a normal return of the retry
wrapper around `translate_batch` always has the batch's length, so the
`RuntimeError` for a post-retry length mismatch can never fire. -/
theorem post_retry_check_unreachable (provider : List String → Nat → RawOutput)
    (inners : List String) (maxChars maxRetries : Nat) :
    (∀ b tr, translate_batch_with_retry (batchCall provider b) b maxRetries = .ok tr →
      tr.length = b.length) ∧
    translate_strings provider inners maxChars maxRetries ≠ .error .postRetryMismatch := by
  constructor
  · intro b tr h
    exact retry_ok_length provider b tr maxRetries h
  · intro h
    rw [translate_strings_eq] at h
    cases hbl : batchLoop provider maxRetries (sentBatches inners maxChars) with
    | error e =>
      rw [hbl] at h
      dsimp only at h
      injection h with h2
      rw [h2] at hbl
      exact batchLoop_ne_postRetry provider maxRetries _ hbl
    | ok ws =>
      rw [hbl] at h
      dsimp only at h
      by_cases hany : ((protectedOf inners).map
          (fun t => dictGet ((firstPassOf inners).1 ++ ws) t)).any (fun o => o.isNone)
      · rw [if_pos hany] at h
        injection h with h2
        exact RunError.noConfusion h2
      · rw [if_neg hany] at h
        by_cases hfin : (((protectedOf inners).map
            (fun t => dictGet ((firstPassOf inners).1 ++ ws) t)).map
            (fun o => o.getD "")).length ≠ (tokenMapsOf inners).length
        · rw [if_pos hfin] at h
          injection h with h2
          exact RunError.noConfusion h2
        · rw [if_neg hfin] at h
          exact absurd h (by simp)

/-- Witness for C10 at a concrete provider and input. -/
theorem post_retry_check_unreachable_witness :
    translate_batch_with_retry
        (batchCall (fun _ _ => RawOutput.ofList [some "b"]) ["a"]) ["a"] 3 = .ok ["b"] →
      (["b"] : List String).length = (["a"] : List String).length :=
  fun h => (post_retry_check_unreachable (fun _ _ => RawOutput.ofList [some "b"]) ["a"] 10 3).1
    ["a"] ["b"] h

/-! ### Success elimination for translate_strings (C4, C5, C6, C9) -/

theorem translate_strings_ok_elim (provider : List String → Nat → RawOutput)
    (inners : List String) (maxChars maxRetries : Nat) (out : List String)
    (h : translate_strings provider inners maxChars maxRetries = .ok out) :
    ∃ ws, batchLoop provider maxRetries (sentBatches inners maxChars) = .ok ws ∧
      cacheWrites provider inners maxChars maxRetries = (firstPassOf inners).1 ++ ws ∧
      out = ((((protectedOf inners).map
        (fun t => dictGet ((firstPassOf inners).1 ++ ws) t)).map
        (fun o => o.getD "")).zip (tokenMapsOf inners)).map
        (fun p => unprotect_tokens p.1 p.2) := by
  rw [translate_strings_eq] at h
  cases hbl : batchLoop provider maxRetries (sentBatches inners maxChars) with
  | error e => rw [hbl] at h; exact absurd h (by simp)
  | ok ws =>
    rw [hbl] at h
    dsimp only at h
    by_cases hany : ((protectedOf inners).map
        (fun t => dictGet ((firstPassOf inners).1 ++ ws) t)).any (fun o => o.isNone)
    · rw [if_pos hany] at h
      exact absurd h (by simp)
    · rw [if_neg hany] at h
      by_cases hfin : (((protectedOf inners).map
          (fun t => dictGet ((firstPassOf inners).1 ++ ws) t)).map
          (fun o => o.getD "")).length ≠ (tokenMapsOf inners).length
      · rw [if_pos hfin] at h
        exact absurd h (by simp)
      · rw [if_neg hfin] at h
        injection h with h2
        refine ⟨ws, rfl, ?_, h2.symm⟩
        simp only [cacheWrites, hbl]

/-- C5: a successful run of `translate_strings` returns exactly one
final string per input unit, in input order: position `i` holds the
unprotection, under unit `i`'s own token map, of the cache entry for
unit `i`'s protected text. -/
theorem translate_strings_order_and_resolution (provider : List String → Nat → RawOutput)
    (inners : List String) (maxChars maxRetries : Nat) (out : List String)
    (h : translate_strings provider inners maxChars maxRetries = .ok out) :
    out.length = inners.length ∧
    ∀ (i : Nat) (p : String) (tm : List (String × String)),
      (protectedOf inners)[i]? = some p → (tokenMapsOf inners)[i]? = some tm →
      out[i]? = some (unprotect_tokens
        ((dictGet (cacheWrites provider inners maxChars maxRetries) p).getD "") tm) := by
  obtain ⟨ws, hbl, hcw, hout⟩ :=
    translate_strings_ok_elim provider inners maxChars maxRetries out h
  constructor
  · rw [hout, List.length_map, List.length_zip, List.length_map, List.length_map]
    simp [protectedOf, tokenMapsOf]
  · intro i p tm hp htm
    have h1 : (((protectedOf inners).map
        (fun t => dictGet ((firstPassOf inners).1 ++ ws) t)).map
        (fun o => o.getD ""))[i]? =
        some ((dictGet ((firstPassOf inners).1 ++ ws) p).getD "") := by
      rw [List.getElem?_map, List.getElem?_map, hp]
      rfl
    rw [hcw, hout, List.getElem?_map, List.zip_eq_zipWith, List.getElem?_zipWith, h1, htm]
    rfl

/-- C4: a distinct non-whitespace protected value appears exactly once
across all batches handed to the provider, however many units share it,
and units sharing a protected text resolve to the same cached
translation before unprotection. -/
theorem dedup_single_send (inners : List String) (maxChars : Nat) (v : String)
    (hb : isBlank v = false) (hv : v ∈ protectedOf inners) :
    (joinAll (sentBatches inners maxChars)).count v = 1 ∧
    ∀ (provider : List String → Nat → RawOutput) (maxRetries i j : Nat),
      (protectedOf inners)[i]? = (protectedOf inners)[j]? →
      (resolvedOf provider inners maxChars maxRetries)[i]? =
        (resolvedOf provider inners maxChars maxRetries)[j]? := by
  constructor
  · show (joinAll (yield_batches (firstPassOf inners).2 maxChars)).count v = 1
    rw [joinAll_yield_batches]
    exact List.count_eq_one_of_mem (firstPassGo_uniq_nodup _ _)
      (firstPassGo_uniq_complete _ [] v hb hv (by simp))
  · intro provider maxRetries i j hij
    rw [resolvedOf, List.getElem?_map, List.getElem?_map, hij]

/-- Witness for C4 on two units sharing one value plus a blank unit. -/
theorem dedup_single_send_witness :
    isBlank "hi" = false ∧ "hi" ∈ protectedOf ["hi", "hi", " "] ∧
    ((joinAll (sentBatches ["hi", "hi", " "] 100)).count "hi" = 1 ∧
    ∀ (provider : List String → Nat → RawOutput) (maxRetries i j : Nat),
      (protectedOf ["hi", "hi", " "])[i]? = (protectedOf ["hi", "hi", " "])[j]? →
      (resolvedOf provider ["hi", "hi", " "] 100 maxRetries)[i]? =
        (resolvedOf provider ["hi", "hi", " "] 100 maxRetries)[j]?) :=
  ⟨by decide, by decide, dedup_single_send ["hi", "hi", " "] 100 "hi" (by decide) (by decide)⟩

/-- Witness for C5: a one-unit run with a mock provider. -/
theorem translate_strings_order_and_resolution_witness :
    (["b"] : List String).length = (["a"] : List String).length ∧
    ∀ (i : Nat) (p : String) (tm : List (String × String)),
      (protectedOf ["a"])[i]? = some p → (tokenMapsOf ["a"])[i]? = some tm →
      (["b"] : List String)[i]? = some (unprotect_tokens
        ((dictGet (cacheWrites (fun _ _ => RawOutput.ofList [some "b"]) ["a"] 10 3) p).getD "")
        tm) :=
  translate_strings_order_and_resolution (fun _ _ => RawOutput.ofList [some "b"]) ["a"] 10 3
    ["b"] (by decide)

/-! ### The blank policy (C6) -/

theorem dictGet_blank_self (provider : List String → Nat → RawOutput)
    (inners : List String) (maxChars maxRetries : Nat) (p : String)
    (hmem : p ∈ protectedOf inners) (hb : isBlank p = true) :
    dictGet (cacheWrites provider inners maxChars maxRetries) p = some p := by
  have hfilws : ∀ ws : List (String × String),
      (∀ kv ∈ ws, kv.1 ∈ joinAll (sentBatches inners maxChars)) →
      ws.filter (fun kv => kv.1 == p) = [] := by
    intro ws hkeys
    rw [List.filter_eq_nil_iff]
    intro kv hkv hpk
    have h1 : kv.1 = p := by simpa using hpk
    have h2 := hkeys kv hkv
    have h3 : kv.1 ∈ (firstPassOf inners).2 := by
      have : joinAll (sentBatches inners maxChars) = (firstPassOf inners).2 :=
        joinAll_yield_batches _ _
      rwa [this] at h2
    have h4 := (firstPassGo_uniq_spec _ _ kv.1 h3).1
    rw [h1, hb] at h4
    exact Bool.noConfusion h4
  have hws : List.filter (fun kv => kv.1 == p)
      (match batchLoop provider maxRetries (sentBatches inners maxChars) with
        | .ok ws => ws
        | .error _ => ([] : List (String × String))) = [] := by
    cases hbl : batchLoop provider maxRetries (sentBatches inners maxChars) with
    | error e => simp
    | ok ws =>
      dsimp only
      exact hfilws ws (batchLoop_writes_keys provider maxRetries _ ws hbl)
  simp only [cacheWrites, dictGet]
  rw [List.filter_append, hws, List.append_nil]
  have hshape := firstPassGo_writes_shape (protectedOf inners) []
  have hval : ∀ kv ∈ (firstPassOf inners).1.filter (fun kv => kv.1 == p), kv = (p, p) := by
    intro kv hkv
    rw [List.mem_filter] at hkv
    have h1 : kv.1 = p := by simpa using hkv.2
    rcases hshape kv hkv.1 with ⟨_, hv⟩ | ⟨hnb, _⟩
    · cases kv with
      | mk a b =>
        simp only at h1 hv
        rw [h1] at hv ⊢
        rw [hv]
    · rw [h1, hb] at hnb
      exact Bool.noConfusion hnb
  have hne : (firstPassOf inners).1.filter (fun kv => kv.1 == p) ≠ [] := by
    intro hnil
    have hin : (p, p) ∈ (firstPassOf inners).1 :=
      firstPassGo_blank_write (protectedOf inners) [] p hmem hb
    have : (p, p) ∈ (firstPassOf inners).1.filter (fun kv => kv.1 == p) := by
      rw [List.mem_filter]
      exact ⟨hin, by simp⟩
    rw [hnil] at this
    simp at this
  cases hgl : ((firstPassOf inners).1.filter (fun kv => kv.1 == p)).getLast? with
  | none => exact absurd (List.getLast?_eq_none_iff.mp hgl) hne
  | some kv =>
    have hkv := List.mem_of_getLast?_eq_some hgl
    rw [hval kv hkv]
    rfl

/-- C6: a unit whose protected text is empty or whitespace-only is
mapped to itself in the cache, never occurs in any batch handed to the
provider, and its final output is its original text. -/
theorem blank_protected_policy (provider : List String → Nat → RawOutput)
    (inners : List String) (maxChars maxRetries : Nat) (i : Nat) (p : String)
    (hp : (protectedOf inners)[i]? = some p) (hb : isBlank p = true) :
    dictGet (cacheWrites provider inners maxChars maxRetries) p = some p ∧
    p ∉ joinAll (sentBatches inners maxChars) ∧
    ∀ out, translate_strings provider inners maxChars maxRetries = .ok out →
      out[i]? = inners[i]? := by
  have hmem : p ∈ protectedOf inners := List.getElem?_mem hp
  refine ⟨dictGet_blank_self provider inners maxChars maxRetries p hmem hb, ?_, ?_⟩
  · intro hjoin
    have h1 : joinAll (sentBatches inners maxChars) = (firstPassOf inners).2 :=
      joinAll_yield_batches _ _
    rw [h1] at hjoin
    have h2 := (firstPassGo_uniq_spec _ _ p hjoin).1
    rw [hb] at h2
    exact Bool.noConfusion h2
  · intro out hok
    -- recover the raw unit and the protection facts
    have hpm : (Option.map (fun s => (protect_tokens s).1) inners[i]?) = some p := by
      rw [← List.getElem?_map]
      exact hp
    cases hs : inners[i]? with
    | none => rw [hs] at hpm; exact absurd hpm (by simp)
    | some s =>
      rw [hs] at hpm
      simp only [Option.map_some'] at hpm
      injection hpm with hps
      have hbs : isBlank (protect_tokens s).1 = true := by rw [hps]; exact hb
      obtain ⟨hid, hmap⟩ := protect_blank_id s hbs
      have htm : (tokenMapsOf inners)[i]? = some [] := by
        rw [tokenMapsOf, List.getElem?_map, hs]
        simp [hmap]
      have hres := (translate_strings_order_and_resolution provider inners maxChars
        maxRetries out hok).2 i p [] hp htm
      rw [hres, dictGet_blank_self provider inners maxChars maxRetries p hmem hb]
      have hsp : p = s := by rw [← hps, hid]
      rw [hsp]
      rfl

/-- Witness for C6 on a whitespace-only unit. -/
theorem blank_protected_policy_witness :
    dictGet (cacheWrites (fun _ _ => RawOutput.ofList [some "Xb"]) ["  ", "b"] 50 3) "  " =
      some "  " ∧
    "  " ∉ joinAll (sentBatches ["  ", "b"] 50) ∧
    ∀ out, translate_strings (fun _ _ => RawOutput.ofList [some "Xb"]) ["  ", "b"] 50 3 =
      .ok out → out[0]? = (["  ", "b"] : List String)[0]? :=
  blank_protected_policy (fun _ _ => RawOutput.ofList [some "Xb"]) ["  ", "b"] 50 3 0 "  "
    (by decide) (by decide)

/-! ### Cache write discipline (C9) -/

/-- The claim "an entry, once written, is never written again with a
different value" is false on the code: a queued non-blank value is
first written with the `""` placeholder and later overwritten with its
translation.  Concrete run: one unit `"a"`, provider answering `"b"`. -/
theorem cache_single_write_counterexample :
    ¬ (∀ kv1 ∈ cacheWrites (fun _ _ => RawOutput.ofList [some "b"]) ["a"] 10 3,
        ∀ kv2 ∈ cacheWrites (fun _ _ => RawOutput.ofList [some "b"]) ["a"] 10 3,
        kv1.1 = kv2.1 → kv1.2 = kv2.2) := by decide

/-- C9 (amended): in a successful run, a distinct non-blank protected
value receives exactly two writes — the `""` placeholder at queue time
and then its translation — and every write to a blank value carries the
value itself; entries are never removed, so the final entry for a
non-blank value is its translation. -/
theorem cache_write_discipline (provider : List String → Nat → RawOutput)
    (inners : List String) (maxChars maxRetries : Nat) (out : List String)
    (h : translate_strings provider inners maxChars maxRetries = .ok out) (k : String)
    (hk : k ∈ protectedOf inners) :
    (isBlank k = true → ∀ kv ∈ cacheWrites provider inners maxChars maxRetries,
      kv.1 = k → kv.2 = k) ∧
    (isBlank k = false → ∃ v,
      ((cacheWrites provider inners maxChars maxRetries).filter
        (fun kv => kv.1 == k)).map (fun kv => kv.2) = ["", v] ∧
      dictGet (cacheWrites provider inners maxChars maxRetries) k = some v) := by
  obtain ⟨ws, hbl, hcw, _⟩ :=
    translate_strings_ok_elim provider inners maxChars maxRetries out h
  constructor
  · intro hbk kv hkv hk1
    rw [hcw, List.mem_append] at hkv
    rcases hkv with hkv | hkv
    · rcases firstPassGo_writes_shape (protectedOf inners) [] kv hkv with ⟨_, hv⟩ | ⟨hnb, _⟩
      · rw [hv, hk1]
      · rw [hk1, hbk] at hnb
        exact Bool.noConfusion hnb
    · exfalso
      have h2 := batchLoop_writes_keys provider maxRetries _ ws hbl kv hkv
      have h3 : kv.1 ∈ (firstPassOf inners).2 := by
        have heq : joinAll (sentBatches inners maxChars) = (firstPassOf inners).2 :=
          joinAll_yield_batches _ _
        rwa [heq] at h2
      have h4 := (firstPassGo_uniq_spec _ _ kv.1 h3).1
      rw [hk1, hbk] at h4
      exact Bool.noConfusion h4
  · intro hbk
    have hfp : (firstPassOf inners).1.filter (fun kv => kv.1 == k) = [(k, "")] :=
      firstPassGo_filter_new (protectedOf inners) [] k hbk (by simp) hk
    have hcount : (joinAll (sentBatches inners maxChars)).count k = 1 := by
      have heq : joinAll (sentBatches inners maxChars) = (firstPassOf inners).2 :=
        joinAll_yield_batches _ _
      rw [heq]
      exact List.count_eq_one_of_mem (firstPassGo_uniq_nodup _ _)
        (firstPassGo_uniq_complete _ [] k hbk hk (by simp))
    have hlen : (ws.filter (fun kv => kv.1 == k)).length = 1 := by
      rw [batchLoop_filter_length provider maxRetries _ ws k hbl, hcount]
    obtain ⟨kv, hkv⟩ := List.length_eq_one.mp hlen
    refine ⟨kv.2, ?_, ?_⟩
    · rw [hcw, List.filter_append, hfp, hkv]
      rfl
    · rw [hcw, dictGet, List.filter_append, hfp, hkv]
      rfl

/-- Witness for the amended C9 on a successful one-unit run. -/
theorem cache_write_discipline_witness :
    (isBlank "a" = true → ∀ kv ∈ cacheWrites (fun _ _ => RawOutput.ofList [some "b"]) ["a"] 10 3,
      kv.1 = "a" → kv.2 = "a") ∧
    (isBlank "a" = false → ∃ v,
      ((cacheWrites (fun _ _ => RawOutput.ofList [some "b"]) ["a"] 10 3).filter
        (fun kv => kv.1 == "a")).map (fun kv => kv.2) = ["", v] ∧
      dictGet (cacheWrites (fun _ _ => RawOutput.ofList [some "b"]) ["a"] 10 3) "a" = some v) :=
  cache_write_discipline (fun _ _ => RawOutput.ofList [some "b"]) ["a"] 10 3 ["b"]
    (by decide) "a" (by decide)

/-! ### Leading-segment and occurrence predicates (C1 support) -/

theorem leadsB_iff (pat : List Char) : ∀ l, leadsB pat l = true ↔ Leads pat l := by
  induction pat with
  | nil =>
    intro l
    constructor
    · intro _; exact ⟨l, rfl⟩
    · intro _; rfl
  | cons a as ih =>
    intro l
    cases l with
    | nil =>
      simp only [leadsB, Leads]
      constructor
      · intro h; exact Bool.noConfusion h
      · rintro ⟨t, ht⟩; exact absurd ht (by simp)
    | cons b bs =>
      simp only [leadsB, Bool.and_eq_true, decide_eq_true_eq]
      constructor
      · rintro ⟨hab, h2⟩
        obtain ⟨t, ht⟩ := (ih bs).mp h2
        exact ⟨t, by rw [List.cons_append, ← hab, ← ht]⟩
      · rintro ⟨t, ht⟩
        rw [List.cons_append] at ht
        injection ht with h1 h2
        exact ⟨h1.symm, (ih bs).mpr ⟨t, h2⟩⟩

theorem leads_cons (a b : Char) (p l : List Char) (h : Leads (a :: p) (b :: l)) :
    a = b ∧ Leads p l := by
  obtain ⟨t, ht⟩ := h
  rw [List.cons_append] at ht
  injection ht with h1 h2
  exact ⟨h1.symm, ⟨t, h2⟩⟩

theorem leads_nil_elim (pat : List Char) (h : Leads pat []) : pat = [] := by
  obtain ⟨t, ht⟩ := h
  cases pat with
  | nil => rfl
  | cons c cs => exact absurd ht (by simp)

theorem leads_occurs (pat l : List Char) (h : Leads pat l) : Occurs pat l := by
  obtain ⟨t, ht⟩ := h
  exact ⟨[], t, by simpa using ht⟩

theorem occurs_nil_elim (pat : List Char) (h : Occurs pat []) : pat = [] := by
  obtain ⟨u, v, huv⟩ := h
  have := congrArg List.length huv
  simp [List.length_append] at this
  exact List.eq_nil_of_length_eq_zero (by omega)

theorem occurs_cons_elim (pat : List Char) (c : Char) (l : List Char)
    (h : Occurs pat (c :: l)) : Leads pat (c :: l) ∨ Occurs pat l := by
  obtain ⟨u, v, huv⟩ := h
  cases u with
  | nil => exact Or.inl ⟨v, by simpa using huv⟩
  | cons u0 u' =>
    rw [List.cons_append] at huv
    injection huv with _ h2
    exact Or.inr ⟨u', v, h2⟩

theorem occurs_cons_intro (pat : List Char) (c : Char) (l : List Char)
    (h : Occurs pat l) : Occurs pat (c :: l) := by
  obtain ⟨u, v, huv⟩ := h
  exact ⟨c :: u, v, by rw [huv]; rfl⟩

theorem occurs_append_right (pat a b : List Char) (h : Occurs pat b) :
    Occurs pat (a ++ b) := by
  obtain ⟨u, v, huv⟩ := h
  exact ⟨a ++ u, v, by rw [huv]; simp [List.append_assoc]⟩

theorem occurs_append_left (pat a b : List Char) (h : Occurs pat a) :
    Occurs pat (a ++ b) := by
  obtain ⟨u, v, huv⟩ := h
  exact ⟨u, v ++ b, by rw [huv]; simp [List.append_assoc]⟩

theorem containsTOK_iff (l : List Char) :
    containsTOK l = true ↔ Occurs ['T', 'O', 'K'] l := by
  induction l with
  | nil =>
    simp only [containsTOK]
    constructor
    · intro h; exact Bool.noConfusion h
    · intro h; exact absurd (occurs_nil_elim _ h) (by simp)
  | cons c rest ih =>
    simp only [containsTOK, Bool.or_eq_true]
    constructor
    · rintro (h | h)
      · exact leads_occurs _ _ ((leadsB_iff _ _).mp h)
      · exact occurs_cons_intro _ c rest (ih.mp h)
    · intro h
      rcases occurs_cons_elim _ c rest h with h | h
      · exact Or.inl ((leadsB_iff _ _).mpr h)
      · exact Or.inr (ih.mpr h)

theorem containsTOK_false_prefix (a b : List Char) (h : containsTOK (a ++ b) = false) :
    containsTOK a = false := by
  by_contra hx
  have h1 : containsTOK a = true := by
    cases hc : containsTOK a with
    | true => rfl
    | false => exact absurd hc hx
  have h2 := (containsTOK_iff (a ++ b)).mpr (occurs_append_left _ a b ((containsTOK_iff a).mp h1))
  rw [h] at h2
  exact Bool.noConfusion h2

theorem containsTOK_false_suffix (a b : List Char) (h : containsTOK (a ++ b) = false) :
    containsTOK b = false := by
  by_contra hx
  have h1 : containsTOK b = true := by
    cases hc : containsTOK b with
    | true => rfl
    | false => exact absurd hc hx
  have h2 := (containsTOK_iff (a ++ b)).mpr (occurs_append_right _ a b ((containsTOK_iff b).mp h1))
  rw [h] at h2
  exact Bool.noConfusion h2

theorem containsTOK_cons_false (c : Char) (rest : List Char)
    (h : containsTOK (c :: rest) = false) : containsTOK rest = false := by
  rw [containsTOK, Bool.or_eq_false_iff] at h
  exact h.2

/-! ### Behaviour of the replace model (C1 support) -/

theorem replaceF_irrel : ∀ (f1 f2 : Nat) (cs pat rep : List Char),
    cs.length ≤ f1 → cs.length ≤ f2 → replaceF f1 cs pat rep = replaceF f2 cs pat rep := by
  intro f1
  induction f1 with
  | zero =>
    intro f2 cs pat rep h1 _
    have hcs : cs = [] := List.eq_nil_of_length_eq_zero (by omega)
    subst hcs
    cases f2 with
    | zero => rfl
    | succ b => rfl
  | succ a iha =>
    intro f2 cs pat rep h1 h2
    cases f2 with
    | zero =>
      have hcs : cs = [] := List.eq_nil_of_length_eq_zero (by omega)
      subst hcs
      rfl
    | succ b =>
      cases cs with
      | nil => rfl
      | cons c rest =>
        simp only [replaceF]
        by_cases hcond : pat ≠ [] ∧ leadsB pat (c :: rest) = true
        · rw [if_pos hcond, if_pos hcond]
          have hpat : 1 ≤ pat.length := by
            cases pat with
            | nil => exact absurd rfl hcond.1
            | cons p ps => simp
          have hdl : ((c :: rest).drop pat.length).length ≤ a := by
            rw [List.length_drop]
            simp only [List.length_cons]
            simp only [List.length_cons] at h1
            omega
          have hdl2 : ((c :: rest).drop pat.length).length ≤ b := by
            rw [List.length_drop]
            simp only [List.length_cons]
            simp only [List.length_cons] at h2
            omega
          rw [iha b _ pat rep hdl hdl2]
        · rw [if_neg hcond, if_neg hcond]
          simp only [List.length_cons] at h1 h2
          rw [iha b rest pat rep (by omega) (by omega)]

theorem replaceRun_nil (pat rep : List Char) : replaceRun [] pat rep = [] := rfl

theorem replaceRun_cons (c : Char) (rest pat rep : List Char) :
    replaceRun (c :: rest) pat rep =
      if pat ≠ [] ∧ leadsB pat (c :: rest) = true then
        rep ++ replaceRun ((c :: rest).drop pat.length) pat rep
      else c :: replaceRun rest pat rep := by
  show replaceF (rest.length + 1) (c :: rest) pat rep = _
  simp only [replaceF]
  by_cases hcond : pat ≠ [] ∧ leadsB pat (c :: rest) = true
  · rw [if_pos hcond, if_pos hcond]
    have hpat : 1 ≤ pat.length := by
      cases pat with
      | nil => exact absurd rfl hcond.1
      | cons p ps => simp
    rw [replaceF_irrel rest.length ((c :: rest).drop pat.length).length _ pat rep
      (by rw [List.length_drop]; simp; omega) (Nat.le_refl _)]
    rfl
  · rw [if_neg hcond, if_neg hcond]
    rfl

theorem replaceRun_no_occur : ∀ (cs pat rep : List Char),
    ¬ Occurs pat cs → replaceRun cs pat rep = cs := by
  intro cs
  induction cs with
  | nil => intro pat rep _; rfl
  | cons c rest ih =>
    intro pat rep h
    rw [replaceRun_cons]
    rw [if_neg ?hc]
    case hc =>
      rintro ⟨_, hl⟩
      exact h (leads_occurs _ _ ((leadsB_iff _ _).mp hl))
    rw [ih pat rep (fun hx => h (occurs_cons_intro _ c rest hx))]

theorem replaceRun_leads (pat b rep : List Char) (hne : pat ≠ []) :
    replaceRun (pat ++ b) pat rep = rep ++ replaceRun b pat rep := by
  cases pat with
  | nil => exact absurd rfl hne
  | cons p ps =>
    rw [List.cons_append, replaceRun_cons]
    rw [if_pos ⟨by simp, (leadsB_iff _ _).mpr ⟨b, rfl⟩⟩]
    rw [show List.drop (p :: ps).length (p :: (ps ++ b)) = b from ?_]
    · rw [← List.cons_append]
      exact List.drop_left (p :: ps) b

theorem leads_trunc (pat x b : List Char) (k : Nat) (h : Leads pat (x ++ b))
    (hk : pat.length ≤ x.length + k) : Leads pat (x ++ b.take k) := by
  obtain ⟨t, ht⟩ := h
  rcases List.append_eq_append_iff.mp ht with ⟨a', ha1, ha2⟩ | ⟨c', hc1, hc2⟩
  · -- pat = x ++ a' and b = a' ++ t
    have hlenpat : pat.length = x.length + a'.length := by
      rw [ha1, List.length_append]
    have hak : a'.length ≤ k := by omega
    refine ⟨t.take (k - a'.length), ?_⟩
    rw [ha2, List.take_append_eq_append_take, List.take_of_length_le hak, ha1,
      List.append_assoc]
  · -- x = pat ++ c'
    exact ⟨c' ++ b.take k, by rw [hc1, List.append_assoc]⟩

theorem replaceRun_append_left : ∀ (a b pat rep : List Char), pat ≠ [] →
    ¬ Occurs pat (a ++ b.take (pat.length - 1)) →
    replaceRun (a ++ b) pat rep = a ++ replaceRun b pat rep := by
  intro a
  induction a with
  | nil => intro b pat rep _ _; rfl
  | cons c a' ih =>
    intro b pat rep hne hno
    rw [List.cons_append, replaceRun_cons]
    have hpat : 1 ≤ pat.length := by
      cases pat with
      | nil => exact absurd rfl hne
      | cons p ps => simp
    rw [if_neg ?hc]
    case hc =>
      rintro ⟨_, hl⟩
      have hld : Leads pat ((c :: a') ++ b) := by
        rw [List.cons_append]
        exact (leadsB_iff _ _).mp hl
      have hld2 : Leads pat ((c :: a') ++ b.take (pat.length - 1)) := by
        refine leads_trunc pat (c :: a') b (pat.length - 1) hld ?_
        simp only [List.length_cons]
        omega
      exact hno (leads_occurs _ _ hld2)
    rw [ih b pat rep hne ?hrec]
    case hrec =>
      intro hocc
      apply hno
      rw [List.cons_append]
      exact occurs_cons_intro _ c _ hocc
    rfl

/-! ### Decimal token indices (C1 support) -/

theorem digitChar_isDigit : ∀ n : Nat, n < 10 → (digitChar n).isDigit = true := by decide

theorem digitChar_inj_lt : ∀ m : Nat, m < 10 → ∀ n : Nat, n < 10 →
    digitChar m = digitChar n → m = n := by decide

theorem decReprF_digits : ∀ (fuel n : Nat), n < fuel →
    ∀ c ∈ decReprF fuel n, c.isDigit = true := by
  intro fuel
  induction fuel with
  | zero => intro n hn; omega
  | succ f ihf =>
    intro n hn c hc
    rw [decReprF] at hc
    by_cases h10 : n < 10
    · rw [if_pos h10] at hc
      rw [List.mem_singleton] at hc
      subst hc
      exact digitChar_isDigit n h10
    · rw [if_neg h10] at hc
      rw [List.mem_append, List.mem_singleton] at hc
      rcases hc with hc | hc
      · exact ihf (n / 10) (by omega) c hc
      · subst hc
        exact digitChar_isDigit _ (by omega)

theorem decReprF_ne_nil : ∀ (fuel n : Nat), n < fuel → decReprF fuel n ≠ [] := by
  intro fuel
  induction fuel with
  | zero => intro n hn; omega
  | succ f _ =>
    intro n _ h
    rw [decReprF] at h
    by_cases h10 : n < 10
    · rw [if_pos h10] at h
      exact absurd h (by simp)
    · rw [if_neg h10] at h
      exact absurd h (by simp)

theorem decReprF_inj : ∀ (f1 n : Nat), n < f1 → ∀ (f2 m : Nat), m < f2 →
    decReprF f1 n = decReprF f2 m → n = m := by
  intro f1
  induction f1 with
  | zero => intro n hn; omega
  | succ a iha =>
    intro n hn f2 m hm h
    cases f2 with
    | zero => omega
    | succ b =>
      rw [decReprF, decReprF] at h
      by_cases hn10 : n < 10
      · by_cases hm10 : m < 10
        · rw [if_pos hn10, if_pos hm10] at h
          injection h with h1 _
          exact digitChar_inj_lt n hn10 m hm10 h1
        · rw [if_pos hn10, if_neg hm10] at h
          exfalso
          have hlen := congrArg List.length h
          rw [List.length_append] at hlen
          have hne := decReprF_ne_nil b (m / 10) (by omega)
          cases hd : decReprF b (m / 10) with
          | nil => exact hne hd
          | cons x xs => rw [hd] at hlen; simp at hlen
      · by_cases hm10 : m < 10
        · rw [if_neg hn10, if_pos hm10] at h
          exfalso
          have hlen := congrArg List.length h
          rw [List.length_append] at hlen
          have hne := decReprF_ne_nil a (n / 10) (by omega)
          cases hd : decReprF a (n / 10) with
          | nil => exact hne hd
          | cons x xs => rw [hd] at hlen; simp at hlen
        · rw [if_neg hn10, if_neg hm10] at h
          obtain ⟨h1, h2⟩ := List.append_inj' h (by simp)
          injection h2 with h3 _
          have hq : n / 10 = m / 10 := iha (n / 10) (by omega) b (m / 10) (by omega) h1
          have hr : n % 10 = m % 10 := digitChar_inj_lt _ (by omega) _ (by omega) h3
          omega

theorem decRepr_digits (n : Nat) : ∀ c ∈ decRepr n, c.isDigit = true :=
  decReprF_digits (n + 1) n (by omega)

theorem decRepr_inj (n m : Nat) (h : decRepr n = decRepr m) : n = m :=
  decReprF_inj (n + 1) n (by omega) (m + 1) m (by omega) h

theorem decRepr_no_T (n : Nat) : 'T' ∉ decRepr n := by
  intro h
  have := decRepr_digits n 'T' h
  exact absurd this (by decide)

theorem decRepr_no_us (n : Nat) : '_' ∉ decRepr n := by
  intro h
  have := decRepr_digits n '_' h
  exact absurd this (by decide)

theorem digits_sep : ∀ (a b u : List Char),
    (∀ c ∈ a, c.isDigit = true) → (∀ c ∈ b, c.isDigit = true) →
    Leads (a ++ ['_', '_']) (b ++ ('_' :: '_' :: u)) → a = b := by
  intro a
  induction a with
  | nil =>
    intro b u _ hb h
    cases b with
    | nil => rfl
    | cons y b' =>
      rw [List.nil_append] at h
      obtain ⟨hy, _⟩ := leads_cons _ _ _ _ (by rwa [List.cons_append] at h)
      have := hb y (List.mem_cons_self _ _)
      rw [← hy] at this
      exact absurd this (by decide)
  | cons x a' iha =>
    intro b u ha hb h
    cases b with
    | nil =>
      rw [List.nil_append] at h
      rw [List.cons_append] at h
      obtain ⟨hx, _⟩ := leads_cons _ _ _ _ h
      have := ha x (List.mem_cons_self _ _)
      rw [hx] at this
      exact absurd this (by decide)
    | cons y b' =>
      rw [List.cons_append, List.cons_append] at h
      obtain ⟨hxy, h2⟩ := leads_cons _ _ _ _ h
      have := iha b' u (fun c hc => ha c (List.mem_cons_of_mem _ hc))
        (fun c hc => hb c (List.mem_cons_of_mem _ hc)) h2
      rw [hxy, this]

theorem tokL_ne_nil (i : Nat) : tokL i ≠ [] := by simp [tokL]

theorem tokL_leads_align (i j : Nat) (X : List Char)
    (h : Leads (tokL i) (tokL j ++ X)) : i = j := by
  simp only [tokL, List.cons_append] at h
  obtain ⟨_, h⟩ := leads_cons _ _ _ _ h
  obtain ⟨_, h⟩ := leads_cons _ _ _ _ h
  obtain ⟨_, h⟩ := leads_cons _ _ _ _ h
  obtain ⟨_, h⟩ := leads_cons _ _ _ _ h
  obtain ⟨_, h⟩ := leads_cons _ _ _ _ h
  rw [List.append_assoc] at h
  have := digits_sep (decRepr i) (decRepr j) X (decRepr_digits i) (decRepr_digits j)
    (by rwa [show ['_', '_'] ++ X = '_' :: '_' :: X from rfl] at h)
  exact decRepr_inj i j this

/-! ### Occurrences of tokens in protected text (C1 support) -/

theorem occurs_tok_split : ∀ (u : List Char), 'T' ∉ u → ∀ (X : List Char) (i : Nat),
    Occurs (tokL i) (u ++ X) →
    Occurs (tokL i) X ∨ Leads ('_' :: 'T' :: 'O' :: 'K' :: (decRepr i ++ ['_', '_'])) X ∨
      Leads ('T' :: 'O' :: 'K' :: (decRepr i ++ ['_', '_'])) X := by
  intro u
  induction u with
  | nil => intro _ X i h; exact Or.inl (by simpa using h)
  | cons c u' ih =>
    intro hT X i h
    rw [List.cons_append] at h
    rcases occurs_cons_elim _ c _ h with hld | hocc
    · simp only [tokL] at hld
      obtain ⟨_, hld1⟩ := leads_cons _ _ _ _ hld
      cases u' with
      | nil => exact Or.inr (Or.inl (by simpa using hld1))
      | cons c1 u'' =>
        obtain ⟨_, hld2⟩ := leads_cons _ _ _ _ hld1
        cases u'' with
        | nil => exact Or.inr (Or.inr (by simpa using hld2))
        | cons c2 u''' =>
          obtain ⟨hTc, _⟩ := leads_cons _ _ _ _ hld2
          have hmem : 'T' ∈ c :: c1 :: c2 :: u''' := by
            rw [hTc]
            exact List.mem_cons_of_mem _ (List.mem_cons_of_mem _ (List.mem_cons_self _ _))
          exact absurd hmem hT
    · exact ih (fun hx => hT (List.mem_cons_of_mem _ hx)) X i hocc

theorem protectRun_head (cs X : List Char) (c : Char) (j : Nat)
    (h : (protectRun cs j).1 = c :: X) (hc : c ≠ '_') :
    ∃ rest, cs = c :: rest ∧ X = (protectRun rest j).1 := by
  cases hm : matchPH cs with
  | some pr =>
    obtain ⟨m, rest⟩ := pr
    rw [protectRun_matched cs m rest j hm] at h
    dsimp only at h
    exfalso
    simp only [tokL, List.cons_append] at h
    injection h with h1 _
    exact hc h1.symm
  | none =>
    cases cs with
    | nil =>
      rw [protectRun_nil] at h
      exact absurd h (by simp)
    | cons c' rest =>
      rw [protectRun_unmatched c' rest j hm] at h
      dsimp only at h
      injection h with h1 h2
      exact ⟨rest, by rw [h1], h2.symm⟩

theorem protectRun_no_leads_TOK (cs : List Char) (j i : Nat)
    (hc : containsTOK cs = false) :
    ¬ Leads ('T' :: 'O' :: 'K' :: (decRepr i ++ ['_', '_'])) (protectRun cs j).1 := by
  rintro ⟨t, ht⟩
  rw [List.cons_append, List.cons_append, List.cons_append] at ht
  obtain ⟨r1, hcs1, hX1⟩ := protectRun_head cs _ 'T' j ht (by decide)
  obtain ⟨r2, hcs2, hX2⟩ := protectRun_head r1 _ 'O' j hX1.symm (by decide)
  obtain ⟨r3, hcs3, _⟩ := protectRun_head r2 _ 'K' j hX2.symm (by decide)
  rw [hcs1, hcs2, hcs3] at hc
  simp [containsTOK, leadsB] at hc

theorem protectRun_no_leads_usTOK (cs : List Char) (j i : Nat)
    (hc : containsTOK cs = false) :
    ¬ Leads ('_' :: 'T' :: 'O' :: 'K' :: (decRepr i ++ ['_', '_'])) (protectRun cs j).1 := by
  intro h
  cases hm : matchPH cs with
  | some pr =>
    obtain ⟨m, rest⟩ := pr
    rw [protectRun_matched cs m rest j hm] at h
    obtain ⟨t, ht⟩ := h
    dsimp only at ht
    simp [tokL, List.cons_append] at ht
  | none =>
    cases cs with
    | nil =>
      rw [protectRun_nil] at h
      obtain ⟨t, ht⟩ := h
      exact absurd ht (by simp)
    | cons c' rest =>
      rw [protectRun_unmatched c' rest j hm] at h
      dsimp only at h
      obtain ⟨_, h2⟩ := leads_cons _ _ _ _ h
      exact protectRun_no_leads_TOK rest j i (containsTOK_cons_false c' rest hc) h2

theorem occurs_TOK_of_getElem : ∀ (pre : List Char) (q : Nat),
    pre[q]? = some 'T' → pre[q + 1]? = some 'O' → pre[q + 2]? = some 'K' →
    Occurs ['T', 'O', 'K'] pre := by
  intro pre
  induction pre with
  | nil => intro q hT _ _; simp at hT
  | cons c rest ih =>
    intro q hT hO hK
    cases q with
    | zero =>
      rw [List.getElem?_cons_zero] at hT
      injection hT with hcT
      rw [List.getElem?_cons_succ] at hO hK
      cases rest with
      | nil => simp at hO
      | cons c2 rest2 =>
        rw [List.getElem?_cons_zero] at hO
        injection hO with hcO
        rw [List.getElem?_cons_succ] at hK
        cases rest2 with
        | nil => simp at hK
        | cons c3 rest3 =>
          rw [List.getElem?_cons_zero] at hK
          injection hK with hcK
          exact ⟨[], rest3, by rw [← hcT, ← hcO, ← hcK]; rfl⟩
    | succ q' =>
      rw [List.getElem?_cons_succ] at hT hO hK
      exact occurs_cons_intro _ c rest (ih q' hT hO hK)

theorem no_straddle_occur (pre X pat : List Char)
    (hlen : X.length < pat.length)
    (hT : pat[2]? = some 'T') (hO : pat[3]? = some 'O') (hK : pat[4]? = some 'K')
    (hpre : containsTOK pre = false)
    (hX0 : X[0]? = some '_') (hX1 : X[1]? = some '_') :
    ¬ Occurs pat (pre ++ X) := by
  rintro ⟨u, v, huv⟩
  have hplen2 : 2 < pat.length := by
    by_contra hx
    push_neg at hx
    rw [List.getElem?_eq_none (by omega)] at hT
    exact Option.noConfusion hT
  have hplen3 : 3 < pat.length := by
    by_contra hx
    push_neg at hx
    rw [List.getElem?_eq_none (by omega)] at hO
    exact Option.noConfusion hO
  have hplen4 : 4 < pat.length := by
    by_contra hx
    push_neg at hx
    rw [List.getElem?_eq_none (by omega)] at hK
    exact Option.noConfusion hK
  have hlens : u.length + pat.length + v.length = pre.length + X.length := by
    have := congrArg List.length huv
    simp only [List.length_append] at this
    omega
  have hult : u.length < pre.length := by omega
  have hchar : ∀ d : Nat, d < pat.length → (pre ++ X)[u.length + d]? = pat[d]? := by
    intro d hd
    rw [huv, List.append_assoc]
    rw [List.getElem?_append_right (by omega : u.length ≤ u.length + d)]
    rw [show u.length + d - u.length = d from by omega]
    exact List.getElem?_append_left hd
  by_cases hc1 : u.length + 4 < pre.length
  · have e1 : pre[u.length + 2]? = some 'T' := by
      have h2 := hchar 2 hplen2
      rw [List.getElem?_append_left (by omega)] at h2
      rw [h2, hT]
    have e2 : pre[u.length + 3]? = some 'O' := by
      have h2 := hchar 3 hplen3
      rw [List.getElem?_append_left (by omega)] at h2
      rw [h2, hO]
    have e3 : pre[u.length + 4]? = some 'K' := by
      have h2 := hchar 4 hplen4
      rw [List.getElem?_append_left (by omega)] at h2
      rw [h2, hK]
    have hocc := occurs_TOK_of_getElem pre (u.length + 2) e1
      (by rw [show u.length + 2 + 1 = u.length + 3 from by omega]; exact e2)
      (by rw [show u.length + 2 + 2 = u.length + 4 from by omega]; exact e3)
    have := (containsTOK_iff pre).mpr hocc
    rw [hpre] at this
    exact Bool.noConfusion this
  · by_cases hc2 : u.length + 2 < pre.length
    · have e4 : X[u.length + 4 - pre.length]? = some 'K' := by
        have h2 := hchar 4 hplen4
        rw [List.getElem?_append_right (by omega)] at h2
        rw [h2, hK]
      have hidx : u.length + 4 - pre.length = 0 ∨ u.length + 4 - pre.length = 1 := by omega
      rcases hidx with hidx | hidx
      · rw [hidx, hX0] at e4
        exact absurd e4 (by decide)
      · rw [hidx, hX1] at e4
        exact absurd e4 (by decide)
    · have e2 : X[u.length + 2 - pre.length]? = some 'T' := by
        have h2 := hchar 2 hplen2
        rw [List.getElem?_append_right (by omega)] at h2
        rw [h2, hT]
      have hidx : u.length + 2 - pre.length = 0 ∨ u.length + 2 - pre.length = 1 := by omega
      rcases hidx with hidx | hidx
      · rw [hidx, hX0] at e2
        exact absurd e2 (by decide)
      · rw [hidx, hX1] at e2
        exact absurd e2 (by decide)

/-- No token with an index smaller than every index used by the scan
occurs anywhere in the protected text of a `TOK`-free input. -/
theorem protectRun_no_tok_occurs : ∀ (n : Nat) (cs : List Char), cs.length ≤ n →
    ∀ (j i : Nat), i < j → containsTOK cs = false →
    ¬ Occurs (tokL i) (protectRun cs j).1 := by
  intro n
  induction n with
  | zero =>
    intro cs hlen j i _ _ hocc
    have hcs : cs = [] := List.eq_nil_of_length_eq_zero (by omega)
    subst hcs
    rw [protectRun_nil] at hocc
    exact absurd (occurs_nil_elim _ hocc) (tokL_ne_nil i)
  | succ a iha =>
    intro cs hlen j i hij hc hocc
    cases hm : matchPH cs with
    | some pr =>
      obtain ⟨m, rest⟩ := pr
      obtain ⟨hcsapp, hmne⟩ := matchPH_some_len cs m rest hm
      have hcrest : containsTOK rest = false := by
        rw [hcsapp] at hc
        exact containsTOK_false_suffix m rest hc
      have hrlen : rest.length ≤ a := by
        have := matchPH_rest_lt cs m rest hm
        omega
      rw [protectRun_matched cs m rest j hm] at hocc
      dsimp only at hocc
      rw [show tokL j ++ (protectRun rest (j + 1)).1 =
          '_' :: '_' :: 'T' :: 'O' :: 'K' ::
            ((decRepr j ++ ['_', '_']) ++ (protectRun rest (j + 1)).1) from by
        simp [tokL, List.cons_append]] at hocc
      rcases occurs_cons_elim _ _ _ hocc with h0 | hocc1
      · have : i = j := tokL_leads_align i j (protectRun rest (j + 1)).1 (by
          simpa [tokL, List.cons_append] using h0)
        omega
      rcases occurs_cons_elim _ _ _ hocc1 with h1 | hocc2
      · obtain ⟨t, ht⟩ := h1
        simp [tokL, List.cons_append] at ht
      rcases occurs_cons_elim _ _ _ hocc2 with h2 | hocc3
      · obtain ⟨t, ht⟩ := h2
        simp [tokL, List.cons_append] at ht
      rcases occurs_cons_elim _ _ _ hocc3 with h3 | hocc4
      · obtain ⟨t, ht⟩ := h3
        simp [tokL, List.cons_append] at ht
      rcases occurs_cons_elim _ _ _ hocc4 with h4 | hocc5
      · obtain ⟨t, ht⟩ := h4
        simp [tokL, List.cons_append] at ht
      have hTfree : 'T' ∉ decRepr j ++ ['_', '_'] := by
        intro hx
        rw [List.mem_append] at hx
        rcases hx with hx | hx
        · exact decRepr_no_T j hx
        · simp at hx
      rcases occurs_tok_split _ hTfree _ i hocc5 with hX | hl1 | hl2
      · exact iha rest hrlen (j + 1) i (by omega) hcrest hX
      · exact protectRun_no_leads_usTOK rest (j + 1) i hcrest hl1
      · exact protectRun_no_leads_TOK rest (j + 1) i hcrest hl2
    | none =>
      cases cs with
      | nil =>
        rw [protectRun_nil] at hocc
        exact absurd (occurs_nil_elim _ hocc) (tokL_ne_nil i)
      | cons c rest =>
        rw [protectRun_unmatched c rest j hm] at hocc
        dsimp only at hocc
        rcases occurs_cons_elim _ _ _ hocc with h0 | hocc1
        · simp only [tokL] at h0
          obtain ⟨_, h1⟩ := leads_cons _ _ _ _ h0
          exact protectRun_no_leads_usTOK rest j i (containsTOK_cons_false c rest hc) h1
        · exact iha rest (by simp at hlen; omega) j i hij
            (containsTOK_cons_false c rest hc) hocc1

/-- The heart of the round trip: restoring the tokens of the protected
text of a `TOK`-free input, below any already-restored prefix, yields
the prefix followed by the input. -/
theorem unprot_protect_aux : ∀ (n : Nat) (cs : List Char), cs.length ≤ n →
    ∀ (j : Nat) (pre : List Char), containsTOK (pre ++ cs) = false →
    unprotL (pre ++ (protectRun cs j).1) (protectRun cs j).2 = pre ++ cs := by
  intro n
  induction n with
  | zero =>
    intro cs hlen j pre _
    have hcs : cs = [] := List.eq_nil_of_length_eq_zero (by omega)
    subst hcs
    rw [protectRun_nil]
    rfl
  | succ a iha =>
    intro cs hlen j pre hC
    cases hm : matchPH cs with
    | some pr =>
      obtain ⟨m, rest⟩ := pr
      obtain ⟨hcsapp, hmne⟩ := matchPH_some_len cs m rest hm
      have hrlen : rest.length ≤ a := by
        have := matchPH_rest_lt cs m rest hm
        omega
      have hCrest : containsTOK ((pre ++ m) ++ rest) = false := by
        rw [List.append_assoc, ← hcsapp]
        exact hC
      have hcpre : containsTOK pre = false := containsTOK_false_prefix pre cs hC
      have hcrest2 : containsTOK rest = false := by
        have h1 := containsTOK_false_suffix pre cs hC
        rw [hcsapp] at h1
        exact containsTOK_false_suffix m rest h1
      have hdpos : 1 ≤ (decRepr j).length :=
        List.length_pos.mpr (decReprF_ne_nil (j + 1) j (by omega))
      have hLlen : 8 ≤ (tokL j).length := by
        simp [tokL]
        omega
      rw [protectRun_matched cs m rest j hm]
      dsimp only
      rw [show unprotL (pre ++ (tokL j ++ (protectRun rest (j + 1)).1))
          ((tokL j, m) :: (protectRun rest (j + 1)).2) =
          unprotL (replaceRun (pre ++ (tokL j ++ (protectRun rest (j + 1)).1)) (tokL j) m)
            ((protectRun rest (j + 1)).2) from rfl]
      have hstep1 : replaceRun (pre ++ (tokL j ++ (protectRun rest (j + 1)).1)) (tokL j) m =
          pre ++ replaceRun (tokL j ++ (protectRun rest (j + 1)).1) (tokL j) m := by
        refine replaceRun_append_left pre _ (tokL j) m (tokL_ne_nil j) ?_
        refine no_straddle_occur pre _ (tokL j) ?_ ?_ ?_ ?_ hcpre ?_ ?_
        · rw [List.length_take]
          omega
        · simp [tokL]
        · simp [tokL]
        · simp [tokL]
        · rw [List.getElem?_take_of_lt (by omega)]
          rw [List.getElem?_append_left (by omega)]
          simp [tokL]
        · rw [List.getElem?_take_of_lt (by omega)]
          rw [List.getElem?_append_left (by omega)]
          simp [tokL]
      rw [hstep1]
      rw [replaceRun_leads (tokL j) _ m (tokL_ne_nil j)]
      rw [replaceRun_no_occur _ _ m
        (protectRun_no_tok_occurs a rest hrlen (j + 1) j (by omega) hcrest2)]
      rw [show pre ++ (m ++ (protectRun rest (j + 1)).1) =
          (pre ++ m) ++ (protectRun rest (j + 1)).1 from (List.append_assoc pre m _).symm]
      rw [iha rest hrlen (j + 1) (pre ++ m) hCrest]
      rw [List.append_assoc, ← hcsapp]
    | none =>
      cases cs with
      | nil =>
        rw [protectRun_nil]
        rfl
      | cons c rest =>
        rw [protectRun_unmatched c rest j hm]
        dsimp only
        rw [show pre ++ c :: (protectRun rest j).1 =
            (pre ++ [c]) ++ (protectRun rest j).1 from by simp]
        have hC' : containsTOK ((pre ++ [c]) ++ rest) = false := by
          rw [List.append_assoc]
          simpa using hC
        rw [iha rest (by simp at hlen; omega) j (pre ++ [c]) hC']
        simp

/-- C1 (amended): for every string that does not contain the character
run `TOK` — so the input cannot collide with the synthetic
`__TOK{i}__` tokens — protection followed by unprotection restores the
string exactly, whatever the number and placement of placeholders. -/
theorem protect_unprotect_roundtrip (s : String) (h : containsTOK s.data = false) :
    unprotect_tokens (protect_tokens s).1 (protect_tokens s).2 = s := by
  have hmain := unprot_protect_aux s.data.length s.data (Nat.le_refl _) 0 []
    (by simpa using h)
  have hfold : ∀ (tm : List (List Char × List Char)) (t : List Char),
      unprotect_tokens (String.mk t) (tm.map (fun kv => (String.mk kv.1, String.mk kv.2))) =
        String.mk (unprotL t tm) := by
    intro tm
    induction tm with
    | nil => intro t; rfl
    | cons kv tm' ih =>
      intro t
      show unprotect_tokens (String.mk (replaceRun t kv.1 kv.2))
        (tm'.map (fun kv => (String.mk kv.1, String.mk kv.2))) =
        String.mk (unprotL (replaceRun t kv.1 kv.2) tm')
      exact ih _
  show unprotect_tokens (String.mk (protectRun s.data 0).1)
    ((protectRun s.data 0).2.map (fun kv => (String.mk kv.1, String.mk kv.2))) = s
  rw [hfold]
  rw [show unprotL (protectRun s.data 0).1 (protectRun s.data 0).2 = s.data from by
    simpa using hmain]

/-- Witness for the amended C1 on a string with zero, adjacent and
positional placeholders. -/
theorem protect_unprotect_roundtrip_witness :
    containsTOK ("Hola %1$s%s mundo %d\\n".data) = false ∧
    unprotect_tokens (protect_tokens "Hola %1$s%s mundo %d\\n").1
      (protect_tokens "Hola %1$s%s mundo %d\\n").2 = "Hola %1$s%s mundo %d\\n" :=
  ⟨by decide, protect_unprotect_roundtrip "Hola %1$s%s mundo %d\\n" (by decide)⟩

/-- C1 as stated is false: a string that already contains token-shaped
text is not restored.  `"__TOK0__\\n"` protects to `"__TOK0____TOK0__"`
(the escape becomes token 0), and unprotection replaces both
occurrences, yielding `"\\n\\n"`. -/
theorem protect_unprotect_roundtrip_counterexample :
    unprotect_tokens (protect_tokens "__TOK0__\\n").1 (protect_tokens "__TOK0__\\n").2 ≠
      "__TOK0__\\n" := by decide
